import Mathlib

/-!
# queueinator: job queue and folder codec

A shallow embedding of `queue/queue.go` (the job list, the fairness reordering
`tidyQueue`, the dispatch scan `fetchNextJob`) and of the folder codec
`folder_handler/folder_writer.go`, `folder_handler/folder_reader.go`, with the
properties proved about them.

Conventions of the embedding:
* a Go `string` naming an owner, a folder or a status is a Lean `String`;
* the queue is passed explicitly; every operation below is what the Go method
  does between taking and releasing `qu.mutex`, so one call is one atomic step;
* the fresh directory name that `os.MkdirTemp` hands to `MakeJob` is a
  parameter (`tdir`).
-/

namespace Queueinator

/-! ## Data model (`queue/queue.go`) -/

/-- A job: `user` (owner), `Folder` (working directory, the job handle) and `status`. -/
structure Job where
  user : String
  Folder : String
  status : String
deriving DecidableEq, Repr

/-- The queue: the concurrency limit `nprocs` (a Go `int`) and the job list.
The fields `expire_time` and `mutex` of the Go struct play no part in the
operations embedded here. -/
structure Queue where
  nprocs : Int
  jobs : List Job
deriving DecidableEq, Repr

/-- `MakeJob`: a job of `user` in the fresh directory `tdir`, status `uploading`. -/
def MakeJob (user tdir : String) : Job :=
  { user := user, Folder := tdir, status := "uploading" }

/-- `NewQueue`: an empty queue with the given limit. -/
def NewQueue (nprocs : Int) : Queue :=
  { nprocs := nprocs, jobs := [] }

/-! ## `tidyQueue` -/

/-- The Go `map[string][]Job`: `none` is an absent key. -/
abbrev JobMap := String → Option (List Job)

/-- One iteration of the first loop of `tidyQueue`: look the owner up, register a
new owner in `users` with an empty slice, then store the slice with the job
appended. -/
def groupStep (st : JobMap × List String) (job : Job) : JobMap × List String :=
  match st.1 job.user with
  | some v => (Function.update st.1 job.user (some (v ++ [job])), st.2)
  | none => (Function.update st.1 job.user (some ([] ++ [job])), st.2 ++ [job.user])

/-- The first loop of `tidyQueue`: `job_map` and `users` after ranging over the jobs. -/
def groupJobs (jobs : List Job) : JobMap × List String :=
  jobs.foldl groupStep (fun _ => none, [])

/-- One iteration of the inner loop of `tidyQueue`: if the owner's slice is not
empty, append its head to `new_jobs` and keep the tail in the map. -/
def drawStep (st : JobMap × List Job) (user : String) : JobMap × List Job :=
  match st.1 user with
  | some (j :: rest) => (Function.update st.1 user (some rest), st.2 ++ [j])
  | _ => st

/-- One pass of the inner loop over `users`. -/
def tidyPass (users : List String) (st : JobMap × List Job) : JobMap × List Job :=
  users.foldl drawStep st

/-- The outer loop `for len(new_jobs) < len(qu.jobs)`, with `n = len(qu.jobs)`.
`fuel` bounds the number of passes; `none` means the bound was hit with the
loop condition still true. -/
def tidyLoop : Nat → Nat → List String → JobMap × List Job → Option (List Job)
  | fuel, n, users, st =>
    if st.2.length < n then
      match fuel with
      | 0 => none
      | f + 1 => tidyLoop f n users (tidyPass users st)
    else some st.2

/-- `tidyQueue` on the job list: group by owner, then round-robin passes until
`new_jobs` is as long as the job list. At most `len(qu.jobs)` passes are allowed
for; `tidyQueue_terminates` shows that this is always enough. -/
def tidyQueue (jobs : List Job) : Option (List Job) :=
  let g := groupJobs jobs
  tidyLoop jobs.length jobs.length g.2 (g.1, [])

/-! ## Queue operations -/

/-- `SubmitJob`: tidy the queue, then append the new job. -/
def SubmitJob (qu : Queue) (user tdir : String) : Option Queue :=
  (tidyQueue qu.jobs).map fun js => { qu with jobs := js ++ [MakeJob user tdir] }

/-- The loop of `CheckJob`. -/
def checkIn (job_folder : String) : List Job → String
  | [] => "none"
  | job :: rest => if job.Folder = job_folder then job.status else checkIn job_folder rest

/-- `CheckJob`: status of the first job with that folder, or `none`. -/
def CheckJob (qu : Queue) (job_folder : String) : String :=
  checkIn job_folder qu.jobs

/-- The loop of `SetStatus`: overwrite the status of the first job with that folder. -/
def setStatusIn (job_folder status : String) : List Job → List Job
  | [] => []
  | job :: rest =>
    if job.Folder = job_folder then { job with status := status } :: rest
    else job :: setStatusIn job_folder status rest

/-- `SetStatus`. -/
def SetStatus (qu : Queue) (job_folder status : String) : Queue :=
  { qu with jobs := setStatusIn job_folder status qu.jobs }

/-- `nRunningJobs`: count the jobs whose status is `running`. -/
def nRunningJobs (qu : Queue) : Nat :=
  qu.jobs.foldl (fun njobs job => if job.status = "running" then njobs + 1 else njobs) 0

/-- The scan of `fetchNextJob`: the first job with status `queue` becomes
`running` and its folder is returned; the empty string if there is none. -/
def markFirstQueued : List Job → String × List Job
  | [] => ("", [])
  | job :: rest =>
    if job.status = "queue" then (job.Folder, { job with status := "running" } :: rest)
    else ((markFirstQueued rest).1, job :: (markFirstQueued rest).2)

/-- `fetchNextJob`, one attempt under the lock: `none` when `njobs >= qu.nprocs`
(the caller sleeps and tries again), otherwise the scan. -/
def fetchNextJob (qu : Queue) : Option (String × Queue) :=
  if qu.nprocs ≤ (nRunningJobs qu : Int) then none
  else some ((markFirstQueued qu.jobs).1, { qu with jobs := (markFirstQueued qu.jobs).2 })

/-- The loop of `RemoveJob`: drop the first job with that folder. -/
def removeIn (job_folder : String) : List Job → List Job
  | [] => []
  | job :: rest => if job.Folder = job_folder then rest else job :: removeIn job_folder rest

/-- `RemoveJob` (the queue part; the flag `kill_warn` only selects a log line, and
deleting the folder is outside the model). -/
def RemoveJob (qu : Queue) (job_folder : String) : Queue :=
  { qu with jobs := removeIn job_folder qu.jobs }

/-! ## Vocabulary of the properties -/

/-- The jobs of one owner, in list order. -/
def ownedBy (w : String) (l : List Job) : List Job :=
  l.filter fun j => decide (j.user = w)

/-- Owners in order of first appearance. -/
def firstOwners (l : List Job) : List String :=
  l.foldl (fun acc j => if j.user ∈ acc then acc else acc ++ [j.user]) []

/-! ## Invariants of the loops of `tidyQueue` -/

/-- The invariant of the grouping loop, for the jobs ranged over so far. -/
def GroupInv (jobs : List Job) (st : JobMap × List String) : Prop :=
  st.2.Nodup ∧
  (∀ w, st.1 w = if w ∈ st.2 then some (ownedBy w jobs) else none) ∧
  (∀ w, w ∈ st.2 ↔ ownedBy w jobs ≠ []) ∧
  st.2 = firstOwners jobs

/-- The state of the round-robin loop when `cnt w` draws were attempted for owner `w`. -/
def TInv (jobs : List Job) (users : List String) (cnt : String → Nat)
    (st : JobMap × List Job) : Prop :=
  (∀ w, ownedBy w st.2 = (ownedBy w jobs).take (cnt w)) ∧
  (∀ w ∈ users, st.1 w = some ((ownedBy w jobs).drop (cnt w)))

/-- A list holds, of every owner, the first `cnt w` jobs, the counts of two owners
differing by at most one. -/
def Balanced (jobs P : List Job) : Prop :=
  ∃ (cnt : String → Nat) (p : Nat),
    (∀ w, ownedBy w P = (ownedBy w jobs).take (cnt w)) ∧ ∀ w, p ≤ cnt w ∧ cnt w ≤ p + 1

/-- Draw counts in pass `p` once the owners in `done` have been visited. -/
def passCnt (p : Nat) (done : List String) : String → Nat :=
  fun w => if w ∈ done then p + 1 else p

/-- The invariant of the round-robin loop inside pass `p`. -/
def PInv (jobs : List Job) (users : List String) (p : Nat) (done : List String)
    (st : JobMap × List Job) : Prop :=
  TInv jobs users (passCnt p done) st ∧
  (∀ P, P <+: st.2 → Balanced jobs P) ∧
  firstOwners st.2 = (if p = 0 then done else users)

/-! ## Scenarios, reachable states and the order of statuses -/

/-- The queue part of the `submit` request in `MessageExecute`: `SubmitJob`, then
(after the upload) `SetStatus(job.Folder, "queue")`. -/
def submitAndQueue (qu : Queue) (user tdir : String) : Option Queue :=
  (SubmitJob qu user tdir).map fun q => SetStatus q tdir "queue"

/-- A sequence of `submit` requests, given as (owner, fresh folder) pairs. -/
def submitAll : Queue → List (String × String) → Option Queue
  | qu, [] => some qu
  | qu, (user, tdir) :: rest =>
    match submitAndQueue qu user tdir with
    | none => none
    | some q => submitAll q rest

/-- The folders handed out by at most `k` successive calls of `fetchNextJob`, each
job finishing (`RunJob` ends with `SetStatus(job_folder, "done")`) before the next
call; the loop stops when a call is blocked or finds no queued job. -/
def dispatchOrder : Nat → Queue → List String
  | 0, _ => []
  | k + 1, qu =>
    match fetchNextJob qu with
    | none => []
    | some (folder, q) =>
      if folder = "" then [] else folder :: dispatchOrder k (SetStatus q folder "done")

/-- The queue states reachable from the empty queue with limit `N` by the
operations the server performs: `SubmitJob`, `SetStatus(_, "queue")`, a
`fetchNextJob` that got past its wait loop, `SetStatus(_, "done")`, `RemoveJob`. -/
inductive Reachable (N : Int) : Queue → Prop
  | init : Reachable N (NewQueue N)
  | submit (qu qu2 : Queue) (user tdir : String) :
      Reachable N qu → SubmitJob qu user tdir = some qu2 → Reachable N qu2
  | setQueue (qu : Queue) (folder : String) :
      Reachable N qu → Reachable N (SetStatus qu folder "queue")
  | fetch (qu qu2 : Queue) (folder : String) :
      Reachable N qu → fetchNextJob qu = some (folder, qu2) → Reachable N qu2
  | setDone (qu : Queue) (folder : String) :
      Reachable N qu → Reachable N (SetStatus qu folder "done")
  | remove (qu : Queue) (folder : String) :
      Reachable N qu → Reachable N (RemoveJob qu folder)

/-- Position of a status in the order uploading, queue, running, done. -/
def statusIndex (s : String) : Option Nat :=
  if s = "uploading" then some 0
  else if s = "queue" then some 1
  else if s = "running" then some 2
  else if s = "done" then some 3
  else none

/-- Status `b` is the same as `a` or later than it in the order uploading, queue,
running, done. -/
def NotBackward (a b : String) : Prop :=
  a = b ∨ ∃ i k, statusIndex a = some i ∧ statusIndex b = some k ∧ i < k

/-! ## Folder codec (`folder_handler/folder_writer.go`, `folder_handler/folder_reader.go`)

A byte is a `Nat`, a Go `[]byte` or `string` a list of bytes. The file system is
a collaborator: the encoder reads a tree of files and directories, the decoder's
effect is the list of entries it creates, in order. File-system calls are taken
to succeed, so the only failures are those of the codec itself. -/

/-- A byte string. -/
abbrev Bytes := List Nat

/-- The bytes of an ASCII text. -/
def ascii (s : String) : Bytes := s.toList.map Char.toNat

mutual
/-- A file-system node: a regular file with its content, or a directory. -/
inductive FsNode where
  | file (content : Bytes)
  | dir (children : FsEntries)
/-- The entries of a directory, in the lexical order in which `filepath.Walk`
visits them. -/
inductive FsEntries where
  | nil
  | cons (name : Bytes) (node : FsNode) (rest : FsEntries)
end

/-- What the codec handles for one entry: its relative path and, for a regular
file, its bytes (`none` for a directory). -/
abbrev Entry := Bytes × Option Bytes

mutual
/-- The walk of `filepath.Walk` below a node whose path relative to the root is
`rel`: the node itself first, then the entries of a directory (`pre` is the
prefix of their relative paths). -/
def walkNode (rel pre : Bytes) : FsNode → List Entry
  | .file content => [(rel, some content)]
  | .dir children => (rel, none) :: walkEntries pre children
/-- The walk over the entries of a directory. -/
def walkEntries (pre : Bytes) : FsEntries → List Entry
  | .nil => []
  | .cons name node rest =>
    walkNode (pre ++ name) (pre ++ name ++ [47]) node ++ walkEntries pre rest
end

/-- `listFilesRecursively`: `filepath.Walk` calls the function for every file or
directory of the tree, the root included, and `filepath.Rel(root, root)` is `.`;
the entries of the root have their name as relative path, deeper ones are joined
with `/`. Each path is paired with what `os.Stat` and `Read` will find there. -/
def listFilesRecursively (root : FsNode) : List Entry :=
  walkNode [46] [] root

/-- Decimal digits of `n`, most significant first, in front of `acc`. -/
def natDigits : Nat → Nat → Bytes → Bytes
  | 0, _, acc => acc
  | fuel + 1, n, acc =>
    if n < 10 then (48 + n) :: acc else natDigits fuel (n / 10) ((48 + n % 10) :: acc)

/-- `strconv.Itoa`. -/
def itoa (n : Int) : Bytes :=
  if n < 0 then 45 :: natDigits (n.natAbs + 1) n.natAbs []
  else natDigits (n.toNat + 1) n.toNat []

/-- One iteration of the loop of `GenFolderMessage` on `(header, contents)`: a
directory adds ` path@-1` to the header; a file is read once into a buffer of
`buffer_size` bytes, ` path@n` is added to the header and the `n` bytes read to
the contents. -/
def genStep (buffer_size : Nat) (st : Bytes × Bytes) (file : Entry) : Bytes × Bytes :=
  match file.2 with
  | none => (st.1 ++ ([32] ++ file.1 ++ [64, 45, 49]), st.2)
  | some content =>
    (st.1 ++ ([32] ++ file.1 ++ [64] ++ itoa ((content.take buffer_size).length : Nat)),
      st.2 ++ content.take buffer_size)

/-- `GenFolderMessage`: `none` is the error `passed message surpasses buffer size`. -/
def GenFolderMessage (root : FsNode) (buffer_size : Nat) : Option Bytes :=
  let files := listFilesRecursively root
  let st := files.foldl (genStep buffer_size) (itoa (files.length : Nat), [])
  let message := st.1 ++ [32] ++ st.2
  if message.length > buffer_size then none else some message

/-- `bytes.Cut(s, sep)` for a one-byte separator, without the `found` flag (which
the decoder ignores): the bytes before the first `sep` and those after it; all of
`s` and nothing when `sep` does not occur. -/
def cut (sep : Nat) : Bytes → Bytes × Bytes
  | [] => ([], [])
  | b :: rest => if b = sep then ([], rest) else (b :: (cut sep rest).1, (cut sep rest).2)

/-- `SkipSpace` of `fmt.Sscanf`: blanks are skipped (the runes of the table `space`
of package `fmt`, in UTF-8), a newline is an error (`none`). -/
def skipSpace : Bytes → Option Bytes
  | [] => some []
  | 10 :: _ => none
  | 9 :: rest => skipSpace rest
  | 11 :: rest => skipSpace rest
  | 12 :: rest => skipSpace rest
  | 13 :: rest => skipSpace rest
  | 32 :: rest => skipSpace rest
  | 0xC2 :: 0x85 :: rest => skipSpace rest
  | 0xC2 :: 0xA0 :: rest => skipSpace rest
  | 0xE1 :: 0x9A :: 0x80 :: rest => skipSpace rest
  | 0xE2 :: 0x80 :: c :: rest =>
    if (0x80 ≤ c ∧ c ≤ 0x8A) ∨ c = 0xA8 ∨ c = 0xA9 ∨ c = 0xAF then skipSpace rest
    else some (0xE2 :: 0x80 :: c :: rest)
  | 0xE2 :: 0x81 :: 0x9F :: rest => skipSpace rest
  | 0xE3 :: 0x80 :: 0x80 :: rest => skipSpace rest
  | s => some s

/-- The bytes `scanNumber` accepts for the verb `%d`: the decimal digits
`0123456789` (`getBase` gives `decimalDigits`; the underscore belongs to `%v`). -/
def isNumberByte (b : Nat) : Bool :=
  decide (48 ≤ b ∧ b ≤ 57)

/-- Value of a run of decimal digits. -/
def decValue (digits : Bytes) : Nat :=
  digits.foldl (fun v b => v * 10 + (b - 48)) 0

/-- `strconv.ParseInt(tok, 10, 64)` on the token `scanNumber` collected (sign apart),
a run of decimal digits: a value outside 64 bits is a range error. -/
def parseInt (neg : Bool) (digits : Bytes) : Option Int :=
  if neg then
    if decValue digits ≤ 2 ^ 63 then some (-(decValue digits : Int)) else none
  else if decValue digits < 2 ^ 63 then some (decValue digits : Int) else none

/-- `scanNumber` then `ParseInt`: at least one decimal digit is required. -/
def scanNumber (neg : Bool) (s : Bytes) : Option Int :=
  if s.takeWhile isNumberByte = [] then none else parseInt neg (s.takeWhile isNumberByte)

/-- `fmt.Sscanf(string(s), "%d", &n)`: `some n` when `err == nil`. Leading blanks
are skipped, a sign is accepted, then the longest run of decimal digits is parsed;
what follows the run is not looked at. -/
def sscanfInt (s : Bytes) : Option Int :=
  match skipSpace s with
  | none => none
  | some [] => none
  | some (43 :: t) => scanNumber false t
  | some (45 :: t) => scanNumber true t
  | some t => scanNumber false t

/-- How a call ends: normally, with an error value, or with a run-time panic. -/
inductive Outcome where
  | ok
  | error
  | panic
deriving DecidableEq, Repr

/-- The loop of `fileStructure` over `n` entries: names, sizes and the rest of the
message; `none` when a size does not scan. -/
def readEntries : Nat → Bytes → Option (List Bytes × List Int × Bytes)
  | 0, message => some ([], [], message)
  | n + 1, message =>
    match sscanfInt (cut 32 (cut 64 message).2).1 with
    | none => none
    | some size =>
      match readEntries n (cut 32 (cut 64 message).2).2 with
      | none => none
      | some r => some ((cut 64 message).1 :: r.1, size :: r.2.1, r.2.2)

/-- `fileStructure`: the outcome and, when it is `ok`, names, sizes and payload.
`make([]string, num_files)` panics for a negative count. Memory is not part of
the embedding: for a count too large to allocate, where `make` panics or the
run-time stops, the loop is modelled as for any other count; the statements that
assert an error are made for counts up to `maxCount`. -/
def fileStructure (message : Bytes) : Outcome × List Bytes × List Int × Bytes :=
  match sscanfInt (cut 32 message).1 with
  | none => (.error, [], [], [])
  | some num_files =>
    if num_files < 0 then (.panic, [], [], [])
    else
      match readEntries num_files.toNat (cut 32 message).2 with
      | none => (.error, [], [], [])
      | some r => (.ok, r)

/-- The loop of `Parse2Files`: the entries created so far and the outcome. Size
`-1` creates a directory; otherwise `message[:fsize]` is written to the file and
`message[fsize:]` is kept, which panics when `fsize` is negative or larger than
what is left. The answers of the file system are not part of the embedding:
`os.Stat` is taken to find nothing or a directory at the path of a declared
directory (so the branch `something that should be a directory is not a
directory` is not taken), and `MkdirAll` and `WriteFile` to succeed. -/
def writeFiles : List Bytes → List Int → Bytes → List Entry × Outcome
  | file :: files, fsize :: sizes, message =>
    if fsize = -1 then
      ((file, none) :: (writeFiles files sizes message).1, (writeFiles files sizes message).2)
    else if fsize < 0 ∨ (message.length : Int) < fsize then ([], .panic)
    else
      ((file, some (message.take fsize.toNat)) ::
          (writeFiles files sizes (message.drop fsize.toNat)).1,
        (writeFiles files sizes (message.drop fsize.toNat)).2)
  | _, _, _ => ([], .ok)

/-- `Parse2Files`: the entries created under the folder, in order (`none`: a
directory, `some content`: a file written with that content), and the outcome. -/
def Parse2Files (message : Bytes) : List Entry × Outcome :=
  match fileStructure message with
  | (.ok, files, file_sizes, rest) => writeFiles files file_sizes rest
  | (out, _) => ([], out)

/-! ## The format in words, and malformed headers -/

/-- The size token of an entry: `-1` for a directory, the decimal length of the
content for a file. -/
def sizeToken (e : Entry) : Bytes :=
  match e.2 with
  | none => [45, 49]
  | some content => itoa (content.length : Nat)

/-- The size the decoder reads for an entry: `-1` for a directory, the length of
the content for a file. -/
def entrySize (e : Entry) : Int :=
  match e.2 with
  | none => -1
  | some content => (content.length : Nat)

/-- The folder message as the format describes it: the decimal count of entries;
for each entry a space, the relative path, `@` and the size token; one space; the
contents of the files in the same order. -/
def wireFormat (files : List Entry) : Bytes :=
  itoa (files.length : Nat) ++ (files.map fun e => [32] ++ e.1 ++ [64] ++ sizeToken e).flatten ++
    [32] ++ (files.map fun e => e.2.getD []).flatten

/-- The entries with the content one `Read` into a buffer of `buffer_size` bytes
captures. -/
def capture (buffer_size : Nat) (files : List Entry) : List Entry :=
  files.map fun e => (e.1, e.2.map (List.take buffer_size))

/-- A decimal numeral: one or more decimal digits. -/
def isNumeral (tok : Bytes) : Bool :=
  !tok.isEmpty && tok.all fun b => decide (48 ≤ b ∧ b ≤ 57)

/-- A well-formed size token: `-1`, or a decimal numeral below 2^63. -/
def isSizeToken (tok : Bytes) : Bool :=
  decide (tok = [45, 49]) || (isNumeral tok && decide (decValue tok < 2 ^ 63))

/-- A token that does not begin with a decimal integer: it is empty; or it begins
with a sign that no digit follows; or it begins with a byte that is neither a
digit, nor a sign, nor the first byte of a blank (tab, vertical tab, form feed,
carriage return, space, or a blank of two or three bytes, which starts with
0xC2, 0xE1, 0xE2 or 0xE3). -/
def notANumber : Bytes → Bool
  | [] => true
  | b :: rest =>
    if b = 43 ∨ b = 45 then
      match rest with
      | [] => true
      | c :: _ => !decide (48 ≤ c ∧ c ≤ 57)
    else !decide (48 ≤ b ∧ b ≤ 57) && !decide (b ∈ [9, 11, 12, 13, 32, 0xC2, 0xE1, 0xE2, 0xE3])

/-- A token ends where the message ends or at a space. -/
def endsToken (tail : Bytes) : Prop :=
  tail = [] ∨ tail.head? = some 32

/-- What may follow the digits of a token without being read: nothing, or bytes
the first of which is not a digit. -/
def notDigitsAhead (garbage : Bytes) : Prop :=
  garbage = [] ∨ ∃ c t, garbage = c :: t ∧ ¬ (48 ≤ c ∧ c ≤ 57)

/-- A declared count of entries small enough for the two slices of
`fileStructure` (24 bytes per entry, 24 MiB here) to be allocated. -/
def maxCount : Nat := 2 ^ 20

/-- A header the decoder rejects. Either the count token (the bytes before the
first space) does not begin with a decimal integer; or the count token is a
numeral, at most `maxCount`, and fewer `@` follow it than entries are declared;
or the count token is such a numeral and, after fewer well-formed entries
`name@size ` than declared (no `@` in the name, a well-formed size), comes an
entry whose size token does not begin with a decimal integer. -/
def MalformedHeader (message : Bytes) : Prop :=
  (∃ tok tail : Bytes, message = tok ++ tail ∧ 32 ∉ tok ∧ endsToken tail ∧
    notANumber tok = true) ∨
  (∃ countTok tail : Bytes, message = countTok ++ tail ∧ endsToken tail ∧
    isNumeral countTok = true ∧ decValue countTok ≤ maxCount ∧
    tail.count 64 < decValue countTok) ∨
  (∃ (countTok : Bytes) (good : List (Bytes × Bytes)) (name badTok tail : Bytes),
    message = countTok ++ [32] ++ (good.map fun g => g.1 ++ [64] ++ g.2 ++ [32]).flatten ++
      name ++ [64] ++ badTok ++ tail ∧
    isNumeral countTok = true ∧ decValue countTok ≤ maxCount ∧
    good.length < decValue countTok ∧
    (∀ g ∈ good, 64 ∉ g.1 ∧ isSizeToken g.2 = true) ∧
    64 ∉ name ∧ 32 ∉ badTok ∧ notANumber badTok = true ∧ endsToken tail)

/-- The folder of the end-to-end scenario: the file `a.txt` with content `hi` and
the empty directory `sub`. -/
def exampleFolder : FsNode :=
  .dir (.cons (ascii "a.txt") (.file (ascii "hi")) (.cons (ascii "sub") (.dir .nil) .nil))

/-! ## Lemmas on `tidyQueue` -/

theorem ownedBy_append (w : String) (a b : List Job) :
    ownedBy w (a ++ b) = ownedBy w a ++ ownedBy w b := by
  simp [ownedBy]

theorem ownedBy_single_self (j : Job) : ownedBy j.user [j] = [j] := by
  simp [ownedBy]

theorem ownedBy_single_ne (j : Job) (w : String) (h : j.user ≠ w) : ownedBy w [j] = [] := by
  simp [ownedBy, h]

theorem user_of_mem_ownedBy {j : Job} {w : String} {l : List Job} (h : j ∈ ownedBy w l) :
    j.user = w := by
  simpa [ownedBy] using (List.mem_filter.1 h).2

theorem mem_ownedBy_self {j : Job} {l : List Job} (h : j ∈ l) : j ∈ ownedBy j.user l := by
  simp [ownedBy, h]

theorem count_ownedBy (j : Job) (l : List Job) :
    (ownedBy j.user l).count j = l.count j := by
  unfold ownedBy
  rw [List.count_filter]
  simp

theorem length_ownedBy_le (w : String) (l : List Job) : (ownedBy w l).length ≤ l.length :=
  List.length_filter_le _ _

theorem firstOwners_concat (l : List Job) (j : Job) :
    firstOwners (l ++ [j]) =
      if j.user ∈ firstOwners l then firstOwners l else firstOwners l ++ [j.user] := by
  simp [firstOwners, List.foldl_append]

theorem groupJobs_concat (l : List Job) (j : Job) :
    groupJobs (l ++ [j]) = groupStep (groupJobs l) j := by
  simp [groupJobs, List.foldl_append]

theorem perm_of_ownedBy_eq {a b : List Job} (h : ∀ w, ownedBy w a = ownedBy w b) :
    a.Perm b := by
  rw [List.perm_iff_count]
  intro j
  rw [← count_ownedBy j a, ← count_ownedBy j b, h]

theorem groupJobs_inv (jobs : List Job) : GroupInv jobs (groupJobs jobs) := by
  induction jobs using List.reverseRecOn with
  | nil =>
    refine ⟨List.nodup_nil, ?_, ?_, rfl⟩
    · intro w; simp [groupJobs]
    · intro w; simp [groupJobs, ownedBy]
  | append_singleton l j ih =>
    obtain ⟨hnd, hm, hmem, hfirst⟩ := ih
    rw [groupJobs_concat]
    generalize groupJobs l = st at hnd hm hmem hfirst
    obtain ⟨m, users⟩ := st
    simp only at hnd hm hmem hfirst
    by_cases hu : j.user ∈ users
    · have hmu : m j.user = some (ownedBy j.user l) := by rw [hm]; simp [hu]
      have hstep : groupStep (m, users) j =
          (Function.update m j.user (some (ownedBy j.user l ++ [j])), users) := by
        simp [groupStep, hmu]
      rw [hstep]
      refine ⟨hnd, ?_, ?_, ?_⟩
      · intro w
        by_cases hw : w = j.user
        · subst hw
          simp [hu, ownedBy_append, ownedBy_single_self]
        · have hw2 : j.user ≠ w := fun h => hw h.symm
          simp [Function.update_noteq hw, hm w, ownedBy_append, ownedBy_single_ne j w hw2]
      · intro w
        by_cases hw : w = j.user
        · subst hw
          simp [hu, ownedBy_append, ownedBy_single_self]
        · have hw2 : j.user ≠ w := fun h => hw h.symm
          simp [hmem w, ownedBy_append, ownedBy_single_ne j w hw2]
      · simp only
        rw [firstOwners_concat, ← hfirst, if_pos hu]
    · have hmu : m j.user = none := by rw [hm]; simp [hu]
      have hempty : ownedBy j.user l = [] := by
        by_contra hne
        exact hu ((hmem _).2 hne)
      have hstep : groupStep (m, users) j =
          (Function.update m j.user (some ([] ++ [j])), users ++ [j.user]) := by
        simp [groupStep, hmu]
      rw [hstep]
      refine ⟨?_, ?_, ?_, ?_⟩
      · simp only
        rw [List.nodup_append]
        refine ⟨hnd, List.nodup_singleton _, ?_⟩
        intro a ha hb
        simp at hb
        subst hb
        exact hu ha
      · intro w
        by_cases hw : w = j.user
        · subst hw
          simp [ownedBy_append, ownedBy_single_self, hempty]
        · have hw2 : j.user ≠ w := fun h => hw h.symm
          simp [Function.update_noteq hw, hm w, hw, ownedBy_append, ownedBy_single_ne j w hw2]
      · intro w
        by_cases hw : w = j.user
        · subst hw
          simp [ownedBy_append, ownedBy_single_self]
        · have hw2 : j.user ≠ w := fun h => hw h.symm
          simp [hmem w, hw, ownedBy_append, ownedBy_single_ne j w hw2]
      · simp only
        rw [firstOwners_concat, ← hfirst, if_neg hu]

theorem take_drop_step {α : Type} (l : List α) (c : Nat) :
    (l.drop c = [] ∧ l.take (c + 1) = l.take c ∧ l.drop (c + 1) = []) ∨
    ∃ j rest, l.drop c = j :: rest ∧ l.take (c + 1) = l.take c ++ [j] ∧
      l.drop (c + 1) = rest := by
  have h1 : l.take (c + 1) = l.take c ++ (l.drop c).take 1 := List.take_add l c 1
  have h2 : l.drop (c + 1) = (l.drop c).drop 1 := by
    rw [List.drop_drop]
  cases hd : l.drop c with
  | nil => left; simp [h1, h2, hd]
  | cons j rest => right; exact ⟨j, rest, rfl, by simp [h1, hd], by simp [h2, hd]⟩

theorem passCnt_snoc (p : Nat) (done : List String) (u : String) (hu : u ∉ done) :
    Function.update (passCnt p done) u (passCnt p done u + 1) = passCnt p (done ++ [u]) := by
  funext w
  by_cases hw : w = u
  · subst hw
    simp [passCnt, hu]
  · simp [Function.update_noteq hw, passCnt, hw]

theorem drawStep_cases (jobs : List Job) (users : List String) (cnt : String → Nat)
    (st : JobMap × List Job) (u : String) (h : TInv jobs users cnt st) (hu : u ∈ users) :
    ((ownedBy u jobs).drop (cnt u) = [] ∧ drawStep st u = st ∧
      TInv jobs users (Function.update cnt u (cnt u + 1)) st) ∨
    ∃ j, j.user = u ∧ (ownedBy u jobs).drop (cnt u) ≠ [] ∧
      (drawStep st u).2 = st.2 ++ [j] ∧
      TInv jobs users (Function.update cnt u (cnt u + 1)) (drawStep st u) := by
  obtain ⟨h1, h2⟩ := h
  have hmu := h2 u hu
  rcases take_drop_step (ownedBy u jobs) (cnt u) with ⟨hd, ht, hd1⟩ | ⟨j, rest, hd, ht, hd1⟩
  · left
    refine ⟨hd, ?_, ?_, ?_⟩
    · simp [drawStep, hmu, hd]
    · intro w
      by_cases hw : w = u
      · subst hw
        simp [ht, h1 w]
      · simp [Function.update_noteq hw, h1 w]
    · intro w hwu
      by_cases hw : w = u
      · subst hw
        simp [hd1, h2 w hwu, hd]
      · simp [Function.update_noteq hw, h2 w hwu]
  · right
    have hju : j.user = u := by
      apply user_of_mem_ownedBy (l := jobs)
      apply List.mem_of_mem_drop (n := cnt u)
      rw [hd]
      exact List.mem_cons_self _ _
    have hstep : drawStep st u = (Function.update st.1 u (some rest), st.2 ++ [j]) := by
      simp [drawStep, hmu, hd]
    refine ⟨j, hju, by simp [hd], by rw [hstep], ?_⟩
    rw [hstep]
    constructor
    · intro w
      by_cases hw : w = u
      · subst hw
        subst hju
        simp [ownedBy_append, ownedBy_single_self, h1, ht]
      · have hw2 : j.user ≠ w := by rw [hju]; exact fun h => hw h.symm
        simp [Function.update_noteq hw, ownedBy_append, ownedBy_single_ne j w hw2, h1 w]
    · intro w hwu
      by_cases hw : w = u
      · subst hw
        simp [hd1]
      · simp [Function.update_noteq hw, h2 w hwu]

theorem drawStep_inv (jobs : List Job) (users : List String) (p : Nat) (done : List String)
    (st : JobMap × List Job) (u : String) (h : PInv jobs users p done st)
    (hu : u ∈ users) (hund : u ∉ done) (hne : ownedBy u jobs ≠ []) :
    PInv jobs users p (done ++ [u]) (drawStep st u) := by
  obtain ⟨hT, hP, hF⟩ := h
  have hcu : passCnt p done u = p := by simp [passCnt, hund]
  have hbal : ∀ w, p ≤ passCnt p (done ++ [u]) w ∧ passCnt p (done ++ [u]) w ≤ p + 1 := by
    intro w
    unfold passCnt
    split <;> omega
  rcases drawStep_cases jobs users _ st u hT hu with ⟨hd, hst, hT2⟩ | ⟨j, hju, hd, hnj, hT2⟩
  · rw [passCnt_snoc p done u hund] at hT2
    rw [hst]
    refine ⟨hT2, hP, ?_⟩
    rw [hF]
    by_cases hp : p = 0
    · exfalso
      rw [hcu, hp] at hd
      exact hne (by simpa using hd)
    · simp [hp]
  · rw [passCnt_snoc p done u hund] at hT2
    refine ⟨hT2, ?_, ?_⟩
    · intro P hPre
      rw [hnj, List.prefix_concat_iff] at hPre
      rcases hPre with hPe | hPp
      · refine ⟨passCnt p (done ++ [u]), p, ?_, hbal⟩
        intro w
        rw [hPe, ← hnj]
        exact hT2.1 w
      · exact hP P hPp
    · rw [hnj, firstOwners_concat, hF, hju]
      by_cases hp : p = 0
      · simp [hp, hund]
      · simp [hp, hu]

theorem tidyPass_inv (jobs : List Job) (users : List String) (p : Nat)
    (hne : ∀ u ∈ users, ownedBy u jobs ≠ []) :
    ∀ (todo done : List String) (st : JobMap × List Job), todo.Nodup →
      (∀ u ∈ todo, u ∈ users ∧ u ∉ done) → PInv jobs users p done st →
      PInv jobs users p (done ++ todo) (tidyPass todo st) := by
  intro todo
  induction todo with
  | nil =>
    intro done st _ _ h
    simpa [tidyPass] using h
  | cons u t ih =>
    intro done st hnd hmem h
    have hu := hmem u (List.mem_cons_self _ _)
    have hstep := drawStep_inv jobs users p done st u h hu.1 hu.2 (hne u hu.1)
    have hnd2 := List.nodup_cons.1 hnd
    have := ih (done ++ [u]) (drawStep st u) hnd2.2 (by
      intro x hx
      have hx2 := hmem x (List.mem_cons_of_mem _ hx)
      refine ⟨hx2.1, ?_⟩
      intro hc
      rcases List.mem_append.1 hc with hc | hc
      · exact hx2.2 hc
      · simp at hc
        subst hc
        exact hnd2.1 hx) hstep
    simpa [tidyPass, List.append_assoc] using this

theorem PInv_next (jobs : List Job) (users : List String) (p : Nat) (st : JobMap × List Job)
    (hall : ∀ w, w ∉ users → ownedBy w jobs = []) (h : PInv jobs users p users st) :
    PInv jobs users (p + 1) [] st := by
  obtain ⟨⟨h1, h2⟩, hP, hF⟩ := h
  refine ⟨⟨?_, ?_⟩, hP, ?_⟩
  · intro w
    rw [h1 w]
    by_cases hw : w ∈ users
    · simp [passCnt, hw]
    · simp [hall w hw]
  · intro w hw
    rw [h2 w hw]
    simp [passCnt, hw]
  · rw [hF]
    by_cases hp : p = 0 <;> simp [hp]

theorem tidyLoop_spec (jobs : List Job) (users : List String) (hnd : users.Nodup)
    (hne : ∀ u ∈ users, ownedBy u jobs ≠ [])
    (hall : ∀ w, w ∉ users → ownedBy w jobs = []) :
    ∀ (fuel p : Nat) (st : JobMap × List Job), PInv jobs users p [] st →
      jobs.length ≤ p + fuel →
      ∃ r q m, tidyLoop fuel jobs.length users st = some r ∧ jobs.length ≤ r.length ∧
        PInv jobs users q [] (m, r) := by
  intro fuel
  induction fuel with
  | zero =>
    intro p st h hp
    unfold tidyLoop
    by_cases hlen : st.2.length < jobs.length
    · exfalso
      have hperm : st.2.Perm jobs := by
        apply perm_of_ownedBy_eq
        intro w
        rw [h.1.1 w]
        apply List.take_of_length_le
        have := length_ownedBy_le w jobs
        simp [passCnt]
        omega
      have := hperm.length_eq
      omega
    · rw [if_neg hlen]
      exact ⟨st.2, p, st.1, rfl, by omega, h⟩
  | succ f ih =>
    intro p st h hp
    unfold tidyLoop
    by_cases hlen : st.2.length < jobs.length
    · rw [if_pos hlen]
      have hpass := tidyPass_inv jobs users p hne users [] st hnd
        (fun u hu => ⟨hu, List.not_mem_nil u⟩) h
      rw [List.nil_append] at hpass
      exact ih (p + 1) _ (PInv_next jobs users p _ hall hpass) (by omega)
    · rw [if_neg hlen]
      exact ⟨st.2, p, st.1, rfl, by omega, h⟩

theorem PInv_init (jobs : List Job) (m : JobMap) (users : List String)
    (hm : ∀ w ∈ users, m w = some (ownedBy w jobs)) : PInv jobs users 0 [] (m, []) := by
  refine ⟨⟨?_, ?_⟩, ?_, ?_⟩
  · intro w
    simp [passCnt, ownedBy]
  · intro w hw
    simp [passCnt, hm w hw]
  · intro P hP
    have hPnil : P = [] := List.prefix_nil.1 hP
    subst hPnil
    exact ⟨fun _ => 0, 0, by intro w; simp [ownedBy], by intro w; simp⟩
  · simp [firstOwners]

/-- What `tidyQueue` returns: it always returns, and its result is a permutation
of the jobs that keeps every owner's jobs in order, keeps the owners in order of
first appearance, and is balanced at every prefix. -/
theorem tidyQueue_spec (jobs : List Job) :
    ∃ r, tidyQueue jobs = some r ∧ r.Perm jobs ∧ (∀ w, ownedBy w r = ownedBy w jobs) ∧
      firstOwners r = firstOwners jobs ∧ ∀ P, P <+: r → Balanced jobs P := by
  obtain ⟨hnd, hm, hmem, hfirst⟩ := groupJobs_inv jobs
  have hne : ∀ u ∈ (groupJobs jobs).2, ownedBy u jobs ≠ [] := fun u hu => (hmem u).1 hu
  have hall : ∀ w, w ∉ (groupJobs jobs).2 → ownedBy w jobs = [] := by
    intro w hw
    by_contra hc
    exact hw ((hmem w).2 hc)
  have hinit : PInv jobs (groupJobs jobs).2 0 [] ((groupJobs jobs).1, []) := by
    apply PInv_init
    intro w hw
    rw [hm w, if_pos hw]
  obtain ⟨r, q, m, hr, hlen, hT, hP, hF⟩ :=
    tidyLoop_spec jobs _ hnd hne hall jobs.length 0 _ hinit (by omega)
  have hsub : r.Subperm jobs := by
    rw [List.subperm_ext_iff]
    intro j _
    rw [← count_ownedBy j r, ← count_ownedBy j jobs, hT.1 j.user]
    exact (List.take_sublist _ _).count_le j
  have hperm : r.Perm jobs := hsub.perm_of_length_le hlen
  have hown : ∀ w, ownedBy w r = ownedBy w jobs := by
    intro w
    have h1 := hT.1 w
    simp only at h1
    have h2 : (ownedBy w r).length = (ownedBy w jobs).length :=
      (hperm.filter _).length_eq
    rw [h1]
    apply List.take_of_length_le
    rw [h1, List.length_take] at h2
    omega
  refine ⟨r, hr, hperm, hown, ?_, hP⟩
  simp only at hF
  rw [hF, ← hfirst]
  by_cases hq : q = 0
  · rw [if_pos hq]
    subst hq
    have hrnil : r = [] := by
      rw [List.eq_nil_iff_forall_not_mem]
      intro j hj
      have h1 := hT.1 j.user
      simp [passCnt] at h1
      have := mem_ownedBy_self hj
      rw [h1] at this
      exact List.not_mem_nil _ this
    subst hrnil
    have hjobs : jobs = [] := hperm.symm.eq_nil
    subst hjobs
    rfl
  · rw [if_neg hq]

theorem tidyQueue_terminates (jobs : List Job) : ∃ r, tidyQueue jobs = some r := by
  obtain ⟨r, hr, _⟩ := tidyQueue_spec jobs
  exact ⟨r, hr⟩

/-! ## Lemmas on the queue operations -/

theorem foldl_running (l : List Job) (n : Nat) :
    l.foldl (fun njobs job => if job.status = "running" then njobs + 1 else njobs) n =
      n + l.countP (fun job => decide (job.status = "running")) := by
  induction l generalizing n with
  | nil => simp
  | cons j t ih =>
    rw [List.foldl_cons, ih, List.countP_cons]
    by_cases h : j.status = "running"
    · simp [h]; omega
    · simp [h]

theorem nRunningJobs_eq (qu : Queue) :
    nRunningJobs qu = qu.jobs.countP (fun job => decide (job.status = "running")) := by
  simp [nRunningJobs, foldl_running]

theorem countP_setStatusIn (folder status : String) (hs : status ≠ "running") (l : List Job) :
    (setStatusIn folder status l).countP (fun job => decide (job.status = "running")) ≤
      l.countP (fun job => decide (job.status = "running")) := by
  induction l with
  | nil => simp [setStatusIn]
  | cons j t ih =>
    unfold setStatusIn
    by_cases h : j.Folder = folder
    · rw [if_pos h, List.countP_cons, List.countP_cons]
      simp [hs]
    · rw [if_neg h, List.countP_cons, List.countP_cons]
      omega

theorem countP_removeIn (folder : String) (l : List Job) :
    (removeIn folder l).countP (fun job => decide (job.status = "running")) ≤
      l.countP (fun job => decide (job.status = "running")) := by
  induction l with
  | nil => simp [removeIn]
  | cons j t ih =>
    unfold removeIn
    by_cases h : j.Folder = folder
    · rw [if_pos h, List.countP_cons]
      omega
    · rw [if_neg h, List.countP_cons, List.countP_cons]
      omega

theorem countP_markFirstQueued (l : List Job) :
    (markFirstQueued l).2.countP (fun job => decide (job.status = "running")) ≤
      l.countP (fun job => decide (job.status = "running")) + 1 := by
  induction l with
  | nil => simp [markFirstQueued]
  | cons j t ih =>
    unfold markFirstQueued
    by_cases h : j.status = "queue"
    · rw [if_pos h]
      simp only [List.countP_cons]
      simp [h]
    · rw [if_neg h]
      simp only [List.countP_cons]
      omega

theorem markFirstQueued_spec (l : List Job) :
    (∃ pre j post, l = pre ++ j :: post ∧ (∀ x ∈ pre, x.status ≠ "queue") ∧
      j.status = "queue" ∧
      markFirstQueued l = (j.Folder, pre ++ { j with status := "running" } :: post)) ∨
    ((∀ x ∈ l, x.status ≠ "queue") ∧ markFirstQueued l = ("", l)) := by
  induction l with
  | nil => right; simp [markFirstQueued]
  | cons a t ih =>
    by_cases h : a.status = "queue"
    · left
      exact ⟨[], a, t, rfl, by simp, h, by simp [markFirstQueued, h]⟩
    · rcases ih with ⟨pre, j, post, ht, hpre, hj, hm⟩ | ⟨hall, hm⟩
      · left
        refine ⟨a :: pre, j, post, by simp [ht], ?_, hj, ?_⟩
        · intro x hx
          rcases List.mem_cons.1 hx with hx | hx
          · subst hx; exact h
          · exact hpre x hx
        · simp [markFirstQueued, h, hm]
      · right
        refine ⟨?_, by simp [markFirstQueued, h, hm]⟩
        intro x hx
        rcases List.mem_cons.1 hx with hx | hx
        · subst hx; exact h
        · exact hall x hx

theorem submitJob_spec (qu qu2 : Queue) (user tdir : String)
    (h : SubmitJob qu user tdir = some qu2) :
    ∃ r, r.Perm qu.jobs ∧ (∀ w, ownedBy w r = ownedBy w qu.jobs) ∧
      qu2 = { qu with jobs := r ++ [MakeJob user tdir] } := by
  obtain ⟨r, hr, hperm, hown, _⟩ := tidyQueue_spec qu.jobs
  refine ⟨r, hperm, hown, ?_⟩
  simp [SubmitJob, hr] at h
  exact h.symm

theorem reachable_inv (N : Int) (hN : 0 ≤ N) (qu : Queue) (h : Reachable N qu) :
    qu.nprocs = N ∧ (nRunningJobs qu : Int) ≤ N := by
  induction h with
  | init => simp [NewQueue, nRunningJobs, hN]
  | submit qu qu2 user tdir _ hs ih =>
    obtain ⟨r, hperm, _, hq⟩ := submitJob_spec qu qu2 user tdir hs
    subst hq
    refine ⟨ih.1, ?_⟩
    have := ih.2
    rw [nRunningJobs_eq] at this ⊢
    simp only [List.countP_append]
    rw [hperm.countP_eq]
    simpa [MakeJob] using this
  | setQueue qu folder _ ih =>
    refine ⟨ih.1, ?_⟩
    have := ih.2
    rw [nRunningJobs_eq] at this ⊢
    have hle := countP_setStatusIn folder "queue" (by decide) qu.jobs
    simp only [SetStatus]
    omega
  | fetch qu qu2 folder _ hf ih =>
    unfold fetchNextJob at hf
    by_cases hb : qu.nprocs ≤ (nRunningJobs qu : Int)
    · rw [if_pos hb] at hf
      exact absurd hf (by simp)
    · rw [if_neg hb] at hf
      simp only [Option.some.injEq, Prod.mk.injEq] at hf
      obtain ⟨_, hq⟩ := hf
      subst hq
      refine ⟨ih.1, ?_⟩
      rw [nRunningJobs_eq] at hb ⊢
      have hle := countP_markFirstQueued qu.jobs
      have := ih.1
      simp only
      omega
  | setDone qu folder _ ih =>
    refine ⟨ih.1, ?_⟩
    have := ih.2
    rw [nRunningJobs_eq] at this ⊢
    have hle := countP_setStatusIn folder "done" (by decide) qu.jobs
    simp only [SetStatus]
    omega
  | remove qu folder _ ih =>
    refine ⟨ih.1, ?_⟩
    have := ih.2
    rw [nRunningJobs_eq] at this ⊢
    have hle := countP_removeIn folder qu.jobs
    simp only [RemoveJob]
    omega

/-! ## The claims on the queue -/

/-- C1 (the code at the failing input): when owner A submits five jobs and owner B
then submits one, all set to `queue` before any job runs, the jobs are handed out
in the order a1, a2, a3, a4, a5, b1: the job of B is served sixth, after all five
jobs of A and not before the second one. `SubmitJob` tidies the queue before it
appends the new job, so the last job submitted is not placed by the round-robin. -/
theorem fairness_fails_when_B_submits_last :
    (submitAll (NewQueue 1)
        [("A", "a1"), ("A", "a2"), ("A", "a3"), ("A", "a4"), ("A", "a5"), ("B", "b1")]).map
      (dispatchOrder 6) = some ["a1", "a2", "a3", "a4", "a5", "b1"] := by
  decide

/-- In each of the five other interleavings (B submits before the last job of A),
the job of B is handed out first or second. -/
theorem fairness_holds_when_B_is_not_last :
    ∀ i : Fin 5,
      (submitAll (NewQueue 1)
          (([("A", "a1"), ("A", "a2"), ("A", "a3"), ("A", "a4"), ("A", "a5")].take i.val) ++
            ("B", "b1") ::
              ([("A", "a1"), ("A", "a2"), ("A", "a3"), ("A", "a4"), ("A", "a5")].drop i.val))).map
        (fun q => decide ((dispatchOrder 6 q).indexOf "b1" ≤ 1)) = some true := by
  decide

/-- C2: for a concurrency limit `N ≥ 0`, in every queue state reachable from the
empty queue by `SubmitJob`, `SetStatus(_, "queue")`, a `fetchNextJob` that
proceeds, `SetStatus(_, "done")` and `RemoveJob`, the number of jobs whose status
is `running` is at most `N`. -/
theorem running_jobs_never_exceed_limit (N : Int) (hN : 0 ≤ N) (qu : Queue)
    (h : Reachable N qu) : (nRunningJobs qu : Int) ≤ N :=
  (reachable_inv N hN qu h).2

/-- C2, at a reachable state: limit 1, one job submitted, queued and fetched; one
job is running. -/
theorem running_jobs_never_exceed_limit_witness :
    nRunningJobs { nprocs := 1, jobs := [{ user := "A", Folder := "a1", status := "running" }] }
        = 1 ∧
      (nRunningJobs { nprocs := 1, jobs := [{ user := "A", Folder := "a1", status := "running" }] }
        : Int) ≤ 1 :=
  ⟨by decide,
    running_jobs_never_exceed_limit 1 (by decide) _
      (Reachable.fetch
        { nprocs := 1, jobs := [{ user := "A", Folder := "a1", status := "queue" }] } _ "a1"
        (Reachable.setQueue
          { nprocs := 1, jobs := [{ user := "A", Folder := "a1", status := "uploading" }] } "a1"
          (Reachable.submit (NewQueue 1) _ "A" "a1" Reachable.init (by decide)))
        (by decide))⟩

/-- C3: `tidyQueue` returns for every job list, and the list it returns is a
permutation of the list it was given: same length, every job occurring the same
number of times. -/
theorem tidyQueue_places_all_jobs (jobs : List Job) :
    ∃ r, tidyQueue jobs = some r ∧ r.Perm jobs ∧ r.length = jobs.length ∧
      ∀ j, r.count j = jobs.count j := by
  obtain ⟨r, hr, hperm, _⟩ := tidyQueue_spec jobs
  exact ⟨r, hr, hperm, hperm.length_eq, fun j => hperm.count_eq j⟩

/-- C4: for every job list and every owner, the subsequence of that owner's jobs
is the same after `tidyQueue` as before, and the owners first appear in the result
in the order in which they first appear in the input. -/
theorem tidyQueue_preserves_orders (jobs : List Job) :
    ∃ r, tidyQueue jobs = some r ∧ (∀ w, ownedBy w r = ownedBy w jobs) ∧
      firstOwners r = firstOwners jobs := by
  obtain ⟨r, hr, _, hown, hfirst, _⟩ := tidyQueue_spec jobs
  exact ⟨r, hr, hown, hfirst⟩

/-- C5: in the list `r` produced by `tidyQueue`, for two distinct owners `u` and
`v`, a job `j` of `u` at any position is preceded by at most one more job of `v`
than of `u`: the k-th job of `u` is preceded by at most k jobs of `v`, and the
first job of `u` by at most one job of `v`. -/
theorem tidyQueue_starvation_bound (jobs r : List Job) (h : tidyQueue jobs = some r)
    (u v : String) (_huv : u ≠ v) (P rest : List Job) (j : Job)
    (hr : r = P ++ j :: rest) (hj : j.user = u) :
    (ownedBy v P).length ≤ (ownedBy u P).length + 1 ∧
      (ownedBy u P = [] → (ownedBy v P).length ≤ 1) := by
  have hmain : (ownedBy v P).length ≤ (ownedBy u P).length + 1 := by
    obtain ⟨r2, hr2, _, hown, _, hbal⟩ := tidyQueue_spec jobs
    rw [h] at hr2
    cases hr2
    obtain ⟨cnt, p, hcnt, hp⟩ := hbal P ⟨j :: rest, hr.symm⟩
    have hv : (ownedBy v P).length ≤ p + 1 := by
      rw [hcnt v, List.length_take]
      have := (hp v).2
      omega
    have hu : (ownedBy u P).length = min (cnt u) (ownedBy u jobs).length := by
      rw [hcnt u, List.length_take]
    have htot : (ownedBy u jobs).length = (ownedBy u P).length + 1 + (ownedBy u rest).length := by
      rw [← hown u, hr]
      have hsplit : P ++ j :: rest = P ++ ([j] ++ rest) := by simp
      rw [hsplit, ownedBy_append, ownedBy_append, ← hj, ownedBy_single_self]
      simp
      omega
    have := (hp u).1
    rw [Nat.min_def] at hu
    split at hu <;> omega
  refine ⟨hmain, ?_⟩
  intro he
  rw [he] at hmain
  simpa using hmain

/-- C5, at a concrete list: three jobs of A then one of B; the job of B comes out
second, preceded by one job of A. -/
theorem tidyQueue_starvation_bound_witness :
    tidyQueue [⟨"A", "a1", "queue"⟩, ⟨"A", "a2", "queue"⟩, ⟨"A", "a3", "queue"⟩,
        ⟨"B", "b1", "queue"⟩] =
      some [⟨"A", "a1", "queue"⟩, ⟨"B", "b1", "queue"⟩, ⟨"A", "a2", "queue"⟩,
        ⟨"A", "a3", "queue"⟩] ∧
    ((ownedBy "A" [⟨"A", "a1", "queue"⟩]).length ≤ (ownedBy "B" [⟨"A", "a1", "queue"⟩]).length + 1 ∧
      (ownedBy "B" [⟨"A", "a1", "queue"⟩] = [] → (ownedBy "A" [⟨"A", "a1", "queue"⟩]).length ≤ 1)) :=
  ⟨by decide,
    tidyQueue_starvation_bound
      [⟨"A", "a1", "queue"⟩, ⟨"A", "a2", "queue"⟩, ⟨"A", "a3", "queue"⟩, ⟨"B", "b1", "queue"⟩]
      [⟨"A", "a1", "queue"⟩, ⟨"B", "b1", "queue"⟩, ⟨"A", "a2", "queue"⟩, ⟨"A", "a3", "queue"⟩]
      (by decide) "B" "A" (by decide) [⟨"A", "a1", "queue"⟩]
      [⟨"A", "a2", "queue"⟩, ⟨"A", "a3", "queue"⟩] ⟨"B", "b1", "queue"⟩ rfl rfl⟩

/-- C6: when fewer than `nprocs` jobs are running, `fetchNextJob` returns the
folder of the first job in sequence order whose status is `queue` and sets that
job, and no other, to `running`, the sequence being otherwise unchanged; when no
job has status `queue` it returns the empty string and the queue is unchanged. -/
theorem fetchNextJob_selects_first_queued (qu : Queue)
    (h : (nRunningJobs qu : Int) < qu.nprocs) :
    (∃ pre j post, qu.jobs = pre ++ j :: post ∧ (∀ x ∈ pre, x.status ≠ "queue") ∧
      j.status = "queue" ∧
      fetchNextJob qu =
        some (j.Folder, { qu with jobs := pre ++ { j with status := "running" } :: post })) ∨
    ((∀ x ∈ qu.jobs, x.status ≠ "queue") ∧ fetchNextJob qu = some ("", qu)) := by
  have hb : ¬ qu.nprocs ≤ (nRunningJobs qu : Int) := by omega
  rcases markFirstQueued_spec qu.jobs with ⟨pre, j, post, hq, hpre, hj, hm⟩ | ⟨hall, hm⟩
  · left
    exact ⟨pre, j, post, hq, hpre, hj, by simp [fetchNextJob, hb, hm]⟩
  · right
    exact ⟨hall, by simp [fetchNextJob, hb, hm]⟩

/-- C6, at a concrete queue: limit 2, one job running, the second job is the first
queued one. -/
theorem fetchNextJob_selects_first_queued_witness :
    fetchNextJob { nprocs := 2, jobs := [⟨"A", "a1", "running"⟩, ⟨"B", "b1", "queue"⟩,
        ⟨"A", "a2", "queue"⟩] } =
      some ("b1", { nprocs := 2, jobs := [⟨"A", "a1", "running"⟩, ⟨"B", "b1", "running"⟩,
        ⟨"A", "a2", "queue"⟩] }) ∧
    ((∃ pre j post, [⟨"A", "a1", "running"⟩, ⟨"B", "b1", "queue"⟩, ⟨"A", "a2", "queue"⟩]
        = pre ++ j :: post ∧ (∀ x ∈ pre, x.status ≠ "queue") ∧ j.status = "queue" ∧
        fetchNextJob { nprocs := 2, jobs := [⟨"A", "a1", "running"⟩, ⟨"B", "b1", "queue"⟩,
          ⟨"A", "a2", "queue"⟩] } =
          some (j.Folder, { nprocs := 2, jobs := pre ++ { j with status := "running" } :: post })) ∨
      ((∀ x ∈ ([⟨"A", "a1", "running"⟩, ⟨"B", "b1", "queue"⟩, ⟨"A", "a2", "queue"⟩] : List Job),
          x.status ≠ "queue") ∧
        fetchNextJob { nprocs := 2, jobs := [⟨"A", "a1", "running"⟩, ⟨"B", "b1", "queue"⟩,
          ⟨"A", "a2", "queue"⟩] } =
          some ("", { nprocs := 2, jobs := [⟨"A", "a1", "running"⟩, ⟨"B", "b1", "queue"⟩,
            ⟨"A", "a2", "queue"⟩] }))) :=
  ⟨by decide,
    fetchNextJob_selects_first_queued
      { nprocs := 2, jobs := [⟨"A", "a1", "running"⟩, ⟨"B", "b1", "queue"⟩, ⟨"A", "a2", "queue"⟩] }
      (by decide)⟩

theorem notBackward_refl (a : String) : NotBackward a a := Or.inl rfl

theorem first_with_folder (folder : String) (l : List Job) :
    (∀ x ∈ l, x.Folder ≠ folder) ∨
    ∃ pre j post, l = pre ++ j :: post ∧ (∀ x ∈ pre, x.Folder ≠ folder) ∧ j.Folder = folder := by
  induction l with
  | nil => left; simp
  | cons a t ih =>
    by_cases h : a.Folder = folder
    · right
      exact ⟨[], a, t, rfl, by simp, h⟩
    · rcases ih with hall | ⟨pre, j, post, ht, hpre, hj⟩
      · left
        intro x hx
        rcases List.mem_cons.1 hx with hx | hx
        · subst hx; exact h
        · exact hall x hx
      · right
        refine ⟨a :: pre, j, post, by simp [ht], ?_, hj⟩
        intro x hx
        rcases List.mem_cons.1 hx with hx | hx
        · subst hx; exact h
        · exact hpre x hx

theorem setStatusIn_none (folder status : String) (l : List Job)
    (h : ∀ x ∈ l, x.Folder ≠ folder) : setStatusIn folder status l = l := by
  induction l with
  | nil => rfl
  | cons a t ih =>
    unfold setStatusIn
    rw [if_neg (h a (List.mem_cons_self _ _)), ih fun x hx => h x (List.mem_cons_of_mem _ hx)]

theorem setStatusIn_first (folder status : String) (pre post : List Job) (j : Job)
    (hpre : ∀ x ∈ pre, x.Folder ≠ folder) (hj : j.Folder = folder) :
    setStatusIn folder status (pre ++ j :: post) = pre ++ { j with status := status } :: post := by
  induction pre with
  | nil => simp [setStatusIn, hj]
  | cons a t ih =>
    rw [List.cons_append, setStatusIn, if_neg (hpre a (List.mem_cons_self _ _)),
      ih fun x hx => hpre x (List.mem_cons_of_mem _ hx)]
    rfl

theorem removeIn_none (folder : String) (l : List Job)
    (h : ∀ x ∈ l, x.Folder ≠ folder) : removeIn folder l = l := by
  induction l with
  | nil => rfl
  | cons a t ih =>
    unfold removeIn
    rw [if_neg (h a (List.mem_cons_self _ _)), ih fun x hx => h x (List.mem_cons_of_mem _ hx)]

theorem removeIn_first (folder : String) (pre post : List Job) (j : Job)
    (hpre : ∀ x ∈ pre, x.Folder ≠ folder) (hj : j.Folder = folder) :
    removeIn folder (pre ++ j :: post) = pre ++ post := by
  induction pre with
  | nil => simp [removeIn, hj]
  | cons a t ih =>
    rw [List.cons_append, removeIn, if_neg (hpre a (List.mem_cons_self _ _)),
      ih fun x hx => hpre x (List.mem_cons_of_mem _ hx)]
    rfl

theorem first_match_unique (folder : String) (pre pre2 post post2 : List Job) (j j2 : Job)
    (h : pre ++ j :: post = pre2 ++ j2 :: post2)
    (hpre : ∀ x ∈ pre, x.Folder ≠ folder) (hj : j.Folder = folder)
    (hpre2 : ∀ x ∈ pre2, x.Folder ≠ folder) (hj2 : j2.Folder = folder) :
    pre = pre2 ∧ j = j2 ∧ post = post2 := by
  induction pre generalizing pre2 with
  | nil =>
    cases pre2 with
    | nil =>
      simp only [List.nil_append, List.cons.injEq] at h
      exact ⟨rfl, h.1, h.2⟩
    | cons b t2 =>
      simp only [List.nil_append, List.cons_append, List.cons.injEq] at h
      exact absurd (h.1 ▸ hj) (hpre2 b (List.mem_cons_self _ _))
  | cons a t ih =>
    cases pre2 with
    | nil =>
      simp only [List.nil_append, List.cons_append, List.cons.injEq] at h
      exact absurd (h.1 ▸ hj2) (hpre a (List.mem_cons_self _ _))
    | cons b t2 =>
      simp only [List.cons_append, List.cons.injEq] at h
      obtain ⟨h1, h2, h3⟩ := ih t2 h.2 (fun x hx => hpre x (List.mem_cons_of_mem _ hx))
        (fun x hx => hpre2 x (List.mem_cons_of_mem _ hx))
      exact ⟨by rw [h.1, h1], h2, h3⟩

theorem forall₂_notBackward_same (l : List Job) :
    List.Forall₂ (fun a b : Job => NotBackward a.status b.status) l l :=
  List.forall₂_same.2 fun x _ => notBackward_refl x.status

theorem forall₂_notBackward_update (pre post : List Job) (j j2 : Job) :
    List.Forall₂ (fun a b : Job => NotBackward a.status b.status)
      (pre ++ j :: post) (pre ++ j2 :: post) ↔ NotBackward j.status j2.status := by
  induction pre with
  | nil =>
    simp only [List.nil_append, List.forall₂_cons]
    exact ⟨fun h => h.1, fun h => ⟨h, forall₂_notBackward_same post⟩⟩
  | cons a t ih =>
    simp only [List.cons_append, List.forall₂_cons]
    exact ⟨fun h => ih.1 h.2, fun h => ⟨notBackward_refl _, ih.2 h⟩⟩

theorem setStatus_forward_iff (qu : Queue) (folder status : String) :
    List.Forall₂ (fun a b : Job => NotBackward a.status b.status)
        qu.jobs (SetStatus qu folder status).jobs ↔
      ∀ pre j post, qu.jobs = pre ++ j :: post → (∀ x ∈ pre, x.Folder ≠ folder) →
        j.Folder = folder → NotBackward j.status status := by
  simp only [SetStatus]
  constructor
  · intro h pre j post hq hpre hj
    rw [hq, setStatusIn_first folder status pre post j hpre hj] at h
    exact (forall₂_notBackward_update pre post j _).1 h
  · intro h
    rcases first_with_folder folder qu.jobs with hall | ⟨pre, j, post, hq, hpre, hj⟩
    · rw [setStatusIn_none folder status _ hall]
      exact forall₂_notBackward_same _
    · rw [hq, setStatusIn_first folder status pre post j hpre hj]
      exact (forall₂_notBackward_update pre post j _).2 (h pre j post hq hpre hj)

/-- C7 (as stated, refuted): `SetStatus` overwrites whatever status the job has,
also with the statuses the server passes. `SetStatus(_, "queue")` moves a job
that is `done`, and one that is `running`, back to `queue`, which is earlier in
the order uploading, queue, running, done. -/
theorem setStatus_moves_status_backward :
    CheckJob { nprocs := 1, jobs := [⟨"A", "a1", "done"⟩] } "a1" = "done" ∧
    CheckJob (SetStatus { nprocs := 1, jobs := [⟨"A", "a1", "done"⟩] } "a1" "queue") "a1"
      = "queue" ∧
    ¬ NotBackward "done" "queue" ∧
    CheckJob (SetStatus { nprocs := 1, jobs := [⟨"A", "a1", "running"⟩] } "a1" "queue") "a1"
      = "queue" ∧
    ¬ NotBackward "running" "queue" := by
  refine ⟨by decide, by decide, ?_, by decide, ?_⟩
  · rintro (h | ⟨i, k, hi, hk, hlt⟩)
    · exact absurd h (by decide)
    · simp [statusIndex] at hi hk
      omega
  · rintro (h | ⟨i, k, hi, hk, hlt⟩)
    · exact absurd h (by decide)
    · simp [statusIndex] at hi hk
      omega

/-- C7 (amended): what each operation does to the statuses.
`SubmitJob` always returns, with the jobs of the queue reordered (a permutation
that keeps each owner's jobs in order, every job unchanged) and one job with
status `uploading` appended. `fetchNextJob` is blocked when `nprocs` jobs or
more are running; otherwise it changes the first job with status `queue`, and
only this one, to `running`, or nothing when no job is queued. `RemoveJob`
deletes the first job with the given folder and changes nothing else. `SetStatus`
replaces the status of the first job with the given folder by the status passed,
whatever the old status, and changes nothing else; it moves no status backward
in the order uploading, queue, running, done exactly when the status passed is
the same as or later than the status of that job. -/
theorem status_moves_forward_amended (qu : Queue) :
    (∀ user tdir, ∃ r,
      SubmitJob qu user tdir = some { qu with jobs := r ++ [⟨user, tdir, "uploading"⟩] } ∧
        r.Perm qu.jobs ∧ ∀ w, ownedBy w r = ownedBy w qu.jobs) ∧
    (qu.nprocs ≤ (nRunningJobs qu : Int) → fetchNextJob qu = none) ∧
    ((nRunningJobs qu : Int) < qu.nprocs →
      (∃ pre j post, qu.jobs = pre ++ j :: post ∧ (∀ x ∈ pre, x.status ≠ "queue") ∧
        j.status = "queue" ∧
        fetchNextJob qu =
          some (j.Folder, { qu with jobs := pre ++ { j with status := "running" } :: post })) ∨
      ((∀ x ∈ qu.jobs, x.status ≠ "queue") ∧ fetchNextJob qu = some ("", qu))) ∧
    (∀ folder,
      ((∀ x ∈ qu.jobs, x.Folder ≠ folder) ∧ RemoveJob qu folder = qu) ∨
      ∃ pre j post, qu.jobs = pre ++ j :: post ∧ (∀ x ∈ pre, x.Folder ≠ folder) ∧
        j.Folder = folder ∧ RemoveJob qu folder = { qu with jobs := pre ++ post }) ∧
    (∀ folder status,
      ((∀ x ∈ qu.jobs, x.Folder ≠ folder) ∧ SetStatus qu folder status = qu) ∨
      ∃ pre j post, qu.jobs = pre ++ j :: post ∧ (∀ x ∈ pre, x.Folder ≠ folder) ∧
        j.Folder = folder ∧
        SetStatus qu folder status =
          { qu with jobs := pre ++ { j with status := status } :: post }) ∧
    (∀ folder status,
      List.Forall₂ (fun a b : Job => NotBackward a.status b.status)
          qu.jobs (SetStatus qu folder status).jobs ↔
        ∀ pre j post, qu.jobs = pre ++ j :: post → (∀ x ∈ pre, x.Folder ≠ folder) →
          j.Folder = folder → NotBackward j.status status) := by
  refine ⟨?_, ?_, ?_, ?_, ?_, ?_⟩
  · intro user tdir
    obtain ⟨r, hr, hperm, hown, _⟩ := tidyQueue_spec qu.jobs
    exact ⟨r, by simp [SubmitJob, hr, MakeJob], hperm, hown⟩
  · intro hb
    simp [fetchNextJob, hb]
  · intro h
    have hb : ¬ qu.nprocs ≤ (nRunningJobs qu : Int) := by omega
    rcases markFirstQueued_spec qu.jobs with ⟨pre, j, post, hq, hpre, hj, hm⟩ | ⟨hall, hm⟩
    · left
      exact ⟨pre, j, post, hq, hpre, hj, by simp [fetchNextJob, hb, hm]⟩
    · right
      exact ⟨hall, by simp [fetchNextJob, hb, hm]⟩
  · intro folder
    rcases first_with_folder folder qu.jobs with hall | ⟨pre, j, post, hq, hpre, hj⟩
    · left
      exact ⟨hall, by simp [RemoveJob, removeIn_none folder _ hall]⟩
    · right
      refine ⟨pre, j, post, hq, hpre, hj, ?_⟩
      simp only [RemoveJob]
      rw [hq, removeIn_first folder pre post j hpre hj]
  · intro folder status
    rcases first_with_folder folder qu.jobs with hall | ⟨pre, j, post, hq, hpre, hj⟩
    · left
      exact ⟨hall, by simp [SetStatus, setStatusIn_none folder status _ hall]⟩
    · right
      refine ⟨pre, j, post, hq, hpre, hj, ?_⟩
      simp only [SetStatus]
      rw [hq, setStatusIn_first folder status pre post j hpre hj]
  · intro folder status
    exact setStatus_forward_iff qu folder status

/-- C7 (amended), at a concrete queue: with one job running under limit 1,
`fetchNextJob` is blocked; `RunJob` sets the running job to `done`, which is
forward; setting it to `queue` is not. -/
theorem status_moves_forward_amended_witness :
    fetchNextJob { nprocs := 1, jobs := [⟨"A", "a1", "running"⟩, ⟨"B", "b1", "queue"⟩] } = none ∧
    List.Forall₂ (fun a b : Job => NotBackward a.status b.status)
      [(⟨"A", "a1", "running"⟩ : Job), ⟨"B", "b1", "queue"⟩]
      (SetStatus { nprocs := 1, jobs := [⟨"A", "a1", "running"⟩, ⟨"B", "b1", "queue"⟩] }
        "a1" "done").jobs ∧
    ¬ List.Forall₂ (fun a b : Job => NotBackward a.status b.status)
      [(⟨"A", "a1", "running"⟩ : Job), ⟨"B", "b1", "queue"⟩]
      (SetStatus { nprocs := 1, jobs := [⟨"A", "a1", "running"⟩, ⟨"B", "b1", "queue"⟩] }
        "a1" "queue").jobs := by
  have hq := status_moves_forward_amended
    { nprocs := 1, jobs := [⟨"A", "a1", "running"⟩, ⟨"B", "b1", "queue"⟩] }
  refine ⟨hq.2.1 (by decide), ?_, ?_⟩
  · apply (hq.2.2.2.2.2 "a1" "done").2
    intro pre j post hjobs hpre hj
    obtain ⟨h1, h2, _⟩ := first_match_unique "a1" pre [] post [⟨"B", "b1", "queue"⟩] j
      ⟨"A", "a1", "running"⟩ hjobs.symm hpre hj (by simp) rfl
    rw [h2]
    exact Or.inr ⟨2, 3, by decide, by decide, by decide⟩
  · intro hf
    have hnb := (hq.2.2.2.2.2 "a1" "queue").1 hf [] ⟨"A", "a1", "running"⟩
      [⟨"B", "b1", "queue"⟩] rfl (by simp) rfl
    rcases hnb with h | ⟨i, k, hi, hk, hlt⟩
    · exact absurd h (by decide)
    · simp [statusIndex] at hi hk
      omega

/-! ## Lemmas on the codec -/

theorem decValue_snoc (ds : Bytes) (b : Nat) : decValue (ds ++ [b]) = decValue ds * 10 + (b - 48) := by
  simp [decValue, List.foldl_append]

theorem natDigits_spec : ∀ (fuel n : Nat) (acc : Bytes), n < fuel →
    ∃ ds, natDigits fuel n acc = ds ++ acc ∧ ds ≠ [] ∧ (∀ b ∈ ds, 48 ≤ b ∧ b ≤ 57) ∧
      decValue ds = n := by
  intro fuel
  induction fuel with
  | zero => intro n acc h; omega
  | succ f ih =>
    intro n acc h
    unfold natDigits
    by_cases hn : n < 10
    · rw [if_pos hn]
      refine ⟨[48 + n], by simp, by simp, ?_, ?_⟩
      · intro b hb
        simp at hb
        omega
      · simp [decValue]
    · rw [if_neg hn]
      obtain ⟨ds, hds, hne, hdig, hval⟩ := ih (n / 10) ((48 + n % 10) :: acc) (by omega)
      refine ⟨ds ++ [48 + n % 10], by simp [hds], by simp, ?_, ?_⟩
      · intro b hb
        rcases List.mem_append.1 hb with hb | hb
        · exact hdig b hb
        · simp at hb
          omega
      · rw [decValue_snoc, hval]
        omega

theorem itoa_nat_spec (n : Nat) :
    itoa (n : Int) ≠ [] ∧ (∀ b ∈ itoa (n : Int), 48 ≤ b ∧ b ≤ 57) ∧ decValue (itoa (n : Int)) = n := by
  obtain ⟨ds, hds, hne, hdig, hval⟩ := natDigits_spec (n + 1) n [] (by omega)
  have h : itoa (n : Int) = ds := by
    unfold itoa
    rw [if_neg (by omega)]
    simpa using hds
  rw [h]
  exact ⟨hne, hdig, hval⟩

theorem skipSpace_digit (b : Nat) (t : Bytes) (h1 : 48 ≤ b) (h2 : b ≤ 57) :
    skipSpace (b :: t) = some (b :: t) := by
  interval_cases b <;> rfl

theorem takeWhile_all (l : Bytes) (h : ∀ b ∈ l, isNumberByte b = true) :
    l.takeWhile isNumberByte = l := by
  induction l with
  | nil => rfl
  | cons a t ih =>
    rw [List.takeWhile_cons, h a (List.mem_cons_self _ _)]
    simp only [if_true]
    rw [ih fun b hb => h b (List.mem_cons_of_mem _ hb)]

theorem scanNumber_digits (ds : Bytes) (hne : ds ≠ []) (hdig : ∀ b ∈ ds, 48 ≤ b ∧ b ≤ 57)
    (hval : decValue ds < 2 ^ 63) : scanNumber false ds = some (decValue ds : Int) := by
  have htw : ds.takeWhile isNumberByte = ds := by
    apply takeWhile_all
    intro b hb
    have := hdig b hb
    simp [isNumberByte, this]
  unfold scanNumber
  rw [htw, if_neg hne]
  unfold parseInt
  simp only [Bool.false_eq_true, if_false]
  rw [if_pos hval]

theorem sscanfInt_digits (ds : Bytes) (hne : ds ≠ []) (hdig : ∀ b ∈ ds, 48 ≤ b ∧ b ≤ 57)
    (hval : decValue ds < 2 ^ 63) : sscanfInt ds = some (decValue ds : Int) := by
  cases ds with
  | nil => exact absurd rfl hne
  | cons b t =>
    have hb := hdig b (List.mem_cons_self _ _)
    have hskip := skipSpace_digit b t hb.1 hb.2
    have hsc := scanNumber_digits (b :: t) hne hdig hval
    unfold sscanfInt
    rw [hskip]
    have h43 : b ≠ 43 := by omega
    have h45 : b ≠ 45 := by omega
    split
    · rename_i heq; exact absurd heq (by simp)
    · rename_i heq; exact absurd heq (by simp)
    · rename_i heq
      simp only [Option.some.injEq, List.cons.injEq] at heq
      exact absurd heq.1 h43
    · rename_i heq
      simp only [Option.some.injEq, List.cons.injEq] at heq
      exact absurd heq.1 h45
    · rename_i heq
      simp only [Option.some.injEq] at heq
      rw [← heq]
      exact hsc

theorem sscanfInt_itoa (n : Nat) (h : n < 2 ^ 63) : sscanfInt (itoa (n : Int)) = some (n : Int) := by
  obtain ⟨hne, hdig, hval⟩ := itoa_nat_spec n
  have := sscanfInt_digits (itoa (n : Int)) hne hdig (by rw [hval]; exact h)
  rw [hval] at this
  exact this

theorem cut_append (sep : Nat) (a b : Bytes) (h : sep ∉ a) : cut sep (a ++ sep :: b) = (a, b) := by
  induction a with
  | nil => simp [cut]
  | cons x t ih =>
    have hx : x ≠ sep := fun he => h (by simp [he])
    have ht : sep ∉ t := fun hm => h (List.mem_cons_of_mem _ hm)
    simp [cut, hx, ih ht]

theorem cut_not_mem (sep : Nat) (a : Bytes) (h : sep ∉ a) : cut sep a = (a, []) := by
  induction a with
  | nil => simp [cut]
  | cons x t ih =>
    have hx : x ≠ sep := fun he => h (by simp [he])
    have ht : sep ∉ t := fun hm => h (List.mem_cons_of_mem _ hm)
    simp [cut, hx, ih ht]

theorem foldl_genStep (cap : Nat) (files : List Entry) (h c : Bytes) :
    files.foldl (genStep cap) (h, c) =
      (h ++ ((capture cap files).map fun e => [32] ++ e.1 ++ [64] ++ sizeToken e).flatten,
        c ++ ((capture cap files).map fun e => e.2.getD []).flatten) := by
  induction files generalizing h c with
  | nil => simp [capture]
  | cons e t ih =>
    obtain ⟨path, info⟩ := e
    rw [List.foldl_cons]
    cases info with
    | none =>
      have hs : genStep cap (h, c) (path, none) = (h ++ ([32] ++ path ++ [64, 45, 49]), c) := rfl
      rw [hs, ih]
      simp [capture, sizeToken]
    | some content =>
      have hs : genStep cap (h, c) (path, some content) =
          (h ++ ([32] ++ path ++ [64] ++ itoa ((content.take cap).length : Nat)),
            c ++ content.take cap) := rfl
      rw [hs, ih]
      simp [capture, sizeToken]

theorem genFolderMessage_eq (root : FsNode) (cap : Nat) :
    GenFolderMessage root cap =
      if (wireFormat (capture cap (listFilesRecursively root))).length > cap then none
      else some (wireFormat (capture cap (listFilesRecursively root))) := by
  have hlen : (capture cap (listFilesRecursively root)).length =
      (listFilesRecursively root).length := by simp [capture]
  simp only [GenFolderMessage, foldl_genStep, wireFormat, hlen, List.append_nil, List.nil_append]

theorem content_length_le_wire (files : List Entry) (e : Entry) (c : Bytes) (he : e ∈ files)
    (hc : e.2 = some c) : c.length ≤ ((files.map fun e => e.2.getD []).flatten).length := by
  induction files with
  | nil => exact absurd he (List.not_mem_nil _)
  | cons a t ih =>
    rcases List.mem_cons.1 he with h | h
    · subst h
      simp [hc]
    · have := ih h
      simp only [List.map_cons, List.flatten_cons, List.length_append]
      omega

theorem length_le_header (files : List Entry) :
    files.length ≤ ((files.map fun e => [32] ++ e.1 ++ [64] ++ sizeToken e).flatten).length := by
  induction files with
  | nil => simp
  | cons a t ih =>
    simp only [List.map_cons, List.flatten_cons, List.length_append, List.length_cons]
    simp only [List.length_cons, List.length_nil] at *
    omega

theorem capture_of_fits (cap : Nat) (files : List Entry)
    (h : ∀ e ∈ files, ∀ c, e.2 = some c → c.length ≤ cap) : capture cap files = files := by
  induction files with
  | nil => rfl
  | cons a t ih =>
    obtain ⟨path, info⟩ := a
    have ht := ih fun e he => h e (List.mem_cons_of_mem _ he)
    unfold capture at ht ⊢
    rw [List.map_cons, ht]
    cases info with
    | none => rfl
    | some c =>
      have := h (path, some c) (List.mem_cons_self _ _) c rfl
      simp [List.take_of_length_le this]

theorem header_shift (files : List Entry) :
    ((files.map fun e => [32] ++ e.1 ++ [64] ++ sizeToken e).flatten) ++ [32] =
      32 :: ((files.map fun e => e.1 ++ [64] ++ sizeToken e ++ [32]).flatten) := by
  induction files with
  | nil => rfl
  | cons a t ih =>
    simp only [List.map_cons, List.flatten_cons, List.append_assoc, List.cons_append,
      List.nil_append] at ih ⊢
    rw [ih]

theorem sizeToken_spec (e : Entry) (h : ∀ c, e.2 = some c → c.length < 2 ^ 63) :
    32 ∉ sizeToken e ∧ sscanfInt (sizeToken e) = some (entrySize e) := by
  obtain ⟨path, info⟩ := e
  cases info with
  | none =>
    have h1 : sizeToken (path, none) = [45, 49] := rfl
    have h2 : entrySize (path, none) = -1 := rfl
    rw [h1, h2]
    exact ⟨by decide, by decide⟩
  | some c =>
    have hc := h c rfl
    obtain ⟨_, hdig, _⟩ := itoa_nat_spec c.length
    refine ⟨?_, ?_⟩
    · intro hm
      have := hdig 32 hm
      omega
    · exact sscanfInt_itoa c.length hc

theorem readEntries_wire (files : List Entry) (rest : Bytes)
    (hnames : ∀ e ∈ files, 64 ∉ e.1)
    (hsizes : ∀ e ∈ files, ∀ c, e.2 = some c → c.length < 2 ^ 63) :
    readEntries files.length
        (((files.map fun e => e.1 ++ [64] ++ sizeToken e ++ [32]).flatten) ++ rest) =
      some (files.map (fun e => e.1), files.map entrySize, rest) := by
  induction files with
  | nil => simp [readEntries]
  | cons a t ih =>
    have hn := hnames a (List.mem_cons_self _ _)
    obtain ⟨h32, hscan⟩ := sizeToken_spec a (hsizes a (List.mem_cons_self _ _))
    have ht := ih (fun e he => hnames e (List.mem_cons_of_mem _ he))
      (fun e he => hsizes e (List.mem_cons_of_mem _ he))
    have hmsg : ((((a :: t).map fun e => e.1 ++ [64] ++ sizeToken e ++ [32]).flatten) ++ rest) =
        a.1 ++ 64 :: (sizeToken a ++ 32 ::
          ((((t.map fun e => e.1 ++ [64] ++ sizeToken e ++ [32]).flatten) ++ rest))) := by
      simp
    rw [hmsg, List.length_cons, readEntries, cut_append 64 _ _ hn]
    simp only
    rw [cut_append 32 _ _ h32]
    simp only
    rw [hscan, ht]
    simp

theorem writeFiles_wire (files : List Entry) :
    writeFiles (files.map fun e => e.1) (files.map entrySize)
        ((files.map fun e => e.2.getD []).flatten) = (files, Outcome.ok) := by
  induction files with
  | nil => simp [writeFiles]
  | cons a t ih =>
    obtain ⟨path, info⟩ := a
    cases info with
    | none =>
      simp only [List.map_cons, entrySize, List.flatten_cons, Option.getD_none, List.nil_append]
      rw [writeFiles, if_pos rfl, ih]
    | some c =>
      simp only [List.map_cons, entrySize, List.flatten_cons, Option.getD_some]
      rw [writeFiles]
      have h1 : ¬ ((c.length : Nat) : Int) = -1 := by omega
      have h2 : ¬ ((((c.length : Nat) : Int) < 0) ∨
          ((c ++ (t.map fun e => e.2.getD []).flatten).length : Int) < ((c.length : Nat) : Int)) := by
        simp only [List.length_append]
        omega
      rw [if_neg h1, if_neg h2]
      simp [ih]

theorem wireFormat_decoder_view (files : List Entry) :
    wireFormat files = itoa (files.length : Nat) ++ 32 ::
      (((files.map fun e => e.1 ++ [64] ++ sizeToken e ++ [32]).flatten) ++
        (files.map fun e => e.2.getD []).flatten) := by
  unfold wireFormat
  rw [List.append_assoc (itoa _), header_shift]
  simp

theorem fileStructure_wire (files : List Entry) (hcount : files.length < 2 ^ 63)
    (hnames : ∀ e ∈ files, 64 ∉ e.1)
    (hsizes : ∀ e ∈ files, ∀ c, e.2 = some c → c.length < 2 ^ 63) :
    fileStructure (wireFormat files) =
      (Outcome.ok, files.map (fun e => e.1), files.map entrySize,
        (files.map fun e => e.2.getD []).flatten) := by
  obtain ⟨_, hdig, _⟩ := itoa_nat_spec files.length
  have h32 : 32 ∉ itoa (files.length : Nat) := by
    intro hm
    have := hdig 32 hm
    omega
  rw [wireFormat_decoder_view]
  unfold fileStructure
  rw [cut_append 32 _ _ h32]
  simp only
  rw [sscanfInt_itoa files.length hcount]
  simp only
  rw [if_neg (by omega)]
  have htn : ((files.length : Nat) : Int).toNat = files.length := by simp
  rw [htn, readEntries_wire files _ hnames hsizes]

theorem parse2Files_wire (files : List Entry) (hcount : files.length < 2 ^ 63)
    (hnames : ∀ e ∈ files, 64 ∉ e.1)
    (hsizes : ∀ e ∈ files, ∀ c, e.2 = some c → c.length < 2 ^ 63) :
    Parse2Files (wireFormat files) = (files, Outcome.ok) := by
  unfold Parse2Files
  rw [fileStructure_wire files hcount hnames hsizes]
  simp only
  exact writeFiles_wire files

/-- C8 (as stated, refuted): a relative path may contain `@`. For the folder
holding one file named `x@0` with content `c`, the encoder produces
`2 .@-1 x@0@1 c`, and the decoder, without any error, creates a file `x` with
empty content: neither the path nor the content of the file is reproduced. -/
theorem roundtrip_fails_for_at_sign_in_name :
    GenFolderMessage (.dir (.cons (ascii "x@0") (.file (ascii "c")) .nil)) 10485760 =
      some (ascii "2 .@-1 x@0@1 c") ∧
    listFilesRecursively (.dir (.cons (ascii "x@0") (.file (ascii "c")) .nil)) =
      [(ascii ".", none), (ascii "x@0", some (ascii "c"))] ∧
    Parse2Files (ascii "2 .@-1 x@0@1 c") =
      ([(ascii ".", none), (ascii "x", some [])], Outcome.ok) ∧
    Parse2Files (ascii "2 .@-1 x@0@1 c") ≠
      (listFilesRecursively (.dir (.cons (ascii "x@0") (.file (ascii "c")) .nil)), Outcome.ok) := by
  decide

/-- C8 (amended): for a directory tree none of whose relative paths contains the
byte `@`, and a capacity (a Go `int`, so below 2^63) at least the encoded size,
`GenFolderMessage` returns the encoding, and `Parse2Files` on it succeeds and
creates exactly the entries of the tree, in walk order: the same relative paths,
a directory exactly where the tree has one, and for every file the same bytes. -/
theorem roundtrip_amended (root : FsNode) (buffer_size : Nat) (hcap : buffer_size < 2 ^ 63)
    (hnames : ∀ e ∈ listFilesRecursively root, 64 ∉ e.1)
    (hsize : (wireFormat (listFilesRecursively root)).length ≤ buffer_size) :
    GenFolderMessage root buffer_size = some (wireFormat (listFilesRecursively root)) ∧
    Parse2Files (wireFormat (listFilesRecursively root)) =
      (listFilesRecursively root, Outcome.ok) := by
  have hP : ((listFilesRecursively root).map fun e => e.2.getD []).flatten.length ≤
      (wireFormat (listFilesRecursively root)).length := by
    unfold wireFormat
    simp only [List.length_append]
    omega
  have hH : (listFilesRecursively root).length ≤
      (wireFormat (listFilesRecursively root)).length := by
    have := length_le_header (listFilesRecursively root)
    unfold wireFormat
    simp only [List.length_append]
    omega
  have hfit : ∀ e ∈ listFilesRecursively root, ∀ c, e.2 = some c → c.length ≤ buffer_size := by
    intro e he c hc
    have := content_length_le_wire _ e c he hc
    omega
  refine ⟨?_, ?_⟩
  · rw [genFolderMessage_eq, capture_of_fits buffer_size _ hfit, if_neg (by omega)]
  · apply parse2Files_wire _ (by omega) hnames
    intro e he c hc
    have := hfit e he c hc
    omega

/-- C8 (amended), at the folder of the end-to-end scenario. -/
theorem roundtrip_amended_witness :
    GenFolderMessage exampleFolder 10485760 = some (wireFormat (listFilesRecursively exampleFolder)) ∧
    Parse2Files (wireFormat (listFilesRecursively exampleFolder)) =
      (listFilesRecursively exampleFolder, Outcome.ok) :=
  roundtrip_amended exampleFolder 10485760 (by decide) (by decide) (by decide)

/-- C9 (as stated, refuted): for the folder containing the file `a.txt` with
content `hi` and the empty directory `sub`, the message is not
`2 a.txt@2 sub@-1 hi`: the walk visits the root as well, as the directory `.`,
so there are three entries and the message is `3 .@-1 a.txt@2 sub@-1 hi`. -/
theorem example_message_has_root_entry :
    GenFolderMessage exampleFolder 10485760 = some (ascii "3 .@-1 a.txt@2 sub@-1 hi") ∧
    GenFolderMessage exampleFolder 10485760 ≠ some (ascii "2 a.txt@2 sub@-1 hi") := by
  decide

/-- C9 (amended): `GenFolderMessage` builds the decimal count of the entries of
the walk (the root `.` included), then for each entry a space, its relative path,
`@` and `-1` for a directory or the decimal number of content bytes captured,
then one space, then the captured contents in the same order; it returns this
message when it is not longer than `buffer_size`, and an error otherwise. For the
folder with `a.txt` (content `hi`) and the empty directory `sub` the message is
`3 .@-1 a.txt@2 sub@-1 hi`. -/
theorem genFolderMessage_format_amended (root : FsNode) (buffer_size : Nat) :
    GenFolderMessage root buffer_size =
      (if (wireFormat (capture buffer_size (listFilesRecursively root))).length > buffer_size
        then none
        else some (wireFormat (capture buffer_size (listFilesRecursively root)))) ∧
    GenFolderMessage exampleFolder 10485760 = some (ascii "3 .@-1 a.txt@2 sub@-1 hi") :=
  ⟨genFolderMessage_eq root buffer_size, by decide⟩

theorem count_cut_snd_le (sep b : Nat) (s : Bytes) : (cut sep s).2.count b ≤ s.count b := by
  induction s with
  | nil => simp [cut]
  | cons x t ih =>
    unfold cut
    by_cases hx : x = sep
    · rw [if_pos hx]
      simp only [List.count_cons]
      omega
    · rw [if_neg hx]
      simp only [List.count_cons]
      omega

theorem count_cut_snd_lt (sep : Nat) (s : Bytes) (h : sep ∈ s) :
    (cut sep s).2.count sep + 1 ≤ s.count sep := by
  induction s with
  | nil => exact absurd h (List.not_mem_nil _)
  | cons x t ih =>
    unfold cut
    by_cases hx : x = sep
    · rw [if_pos hx]
      simp [List.count_cons, hx]
    · rw [if_neg hx]
      have ht : sep ∈ t := by
        rcases List.mem_cons.1 h with h | h
        · exact absurd h.symm hx
        · exact h
      have := ih ht
      simp only [List.count_cons]
      omega

theorem sscanfInt_nil : sscanfInt [] = none := by decide

theorem readEntries_few_at : ∀ (n : Nat) (s : Bytes), s.count 64 < n → readEntries n s = none := by
  intro n
  induction n with
  | zero => intro s h; omega
  | succ k ih =>
    intro s h
    unfold readEntries
    by_cases hmem : 64 ∈ s
    · have h1 := count_cut_snd_lt 64 s hmem
      have h2 := count_cut_snd_le 32 64 (cut 64 s).2
      rw [ih _ (by omega)]
      split <;> rfl
    · rw [cut_not_mem 64 s hmem]
      simp [cut, sscanfInt_nil]

theorem readEntries_bad_size (good : List (Bytes × Bytes)) (name badTok tail : Bytes) (k : Nat)
    (hgood : ∀ g ∈ good, 64 ∉ g.1 ∧ 32 ∉ g.2 ∧ sscanfInt g.2 ≠ none)
    (hname : 64 ∉ name) (hbad32 : 32 ∉ badTok) (hbad : sscanfInt badTok = none)
    (htail : tail = [] ∨ tail.head? = some 32) :
    readEntries (good.length + (k + 1))
      ((good.map fun g => g.1 ++ [64] ++ g.2 ++ [32]).flatten ++ name ++ [64] ++ badTok ++ tail)
      = none := by
  induction good with
  | nil =>
    have hmsg : ((([] : List (Bytes × Bytes)).map fun g => g.1 ++ [64] ++ g.2 ++ [32]).flatten ++
        name ++ [64] ++ badTok ++ tail) = name ++ 64 :: (badTok ++ tail) := by simp
    rw [hmsg, List.length_nil, Nat.zero_add, readEntries, cut_append 64 _ _ hname]
    simp only
    have hcut : (cut 32 (badTok ++ tail)).1 = badTok := by
      rcases htail with ht | ht
      · subst ht
        rw [List.append_nil, cut_not_mem 32 _ hbad32]
      · cases tail with
        | nil => simp at ht
        | cons x t =>
          simp only [List.head?_cons, Option.some.injEq] at ht
          subst ht
          rw [cut_append 32 _ _ hbad32]
    rw [hcut, hbad]
  | cons g t ih =>
    obtain ⟨hg1, hg2, hg3⟩ := hgood g (List.mem_cons_self _ _)
    have ht := ih fun x hx => hgood x (List.mem_cons_of_mem _ hx)
    have hmsg : (((g :: t).map fun g => g.1 ++ [64] ++ g.2 ++ [32]).flatten ++
        name ++ [64] ++ badTok ++ tail) =
        g.1 ++ 64 :: (g.2 ++ 32 :: ((t.map fun g => g.1 ++ [64] ++ g.2 ++ [32]).flatten ++
          name ++ [64] ++ badTok ++ tail)) := by simp
    have hlen : (g :: t).length + (k + 1) = (t.length + (k + 1)) + 1 := by
      simp only [List.length_cons]
      omega
    rw [hmsg, hlen, readEntries, cut_append 64 _ _ hg1]
    simp only
    rw [cut_append 32 _ _ hg2]
    simp only
    rw [ht]
    split <;> rfl

theorem cut_token (tok tail : Bytes) (h32 : 32 ∉ tok) (ht : endsToken tail) :
    cut 32 (tok ++ tail) = (tok, tail.tail) := by
  rcases ht with ht | ht
  · subst ht
    rw [List.append_nil, cut_not_mem 32 _ h32]
    rfl
  · cases tail with
    | nil => simp at ht
    | cons x t =>
      simp only [List.head?_cons, Option.some.injEq] at ht
      subst ht
      rw [cut_append 32 _ _ h32]
      rfl

theorem isNumeral_spec (tok : Bytes) (h : isNumeral tok = true) :
    tok ≠ [] ∧ ∀ b ∈ tok, 48 ≤ b ∧ b ≤ 57 := by
  unfold isNumeral at h
  simp only [Bool.and_eq_true, Bool.not_eq_true', List.isEmpty_eq_false, List.all_eq_true,
    decide_eq_true_eq] at h
  refine ⟨?_, h.2⟩
  intro he
  rw [he] at h
  simp at h

theorem isNumeral_no_space (tok : Bytes) (h : isNumeral tok = true) : 32 ∉ tok := by
  intro hm
  have := (isNumeral_spec tok h).2 32 hm
  omega

theorem sscanfInt_numeral (tok : Bytes) (h : isNumeral tok = true) (hv : decValue tok < 2 ^ 63) :
    sscanfInt tok = some (decValue tok : Int) :=
  sscanfInt_digits tok (isNumeral_spec tok h).1 (isNumeral_spec tok h).2 hv

theorem isSizeToken_spec (tok : Bytes) (h : isSizeToken tok = true) :
    32 ∉ tok ∧ sscanfInt tok ≠ none := by
  unfold isSizeToken at h
  simp only [Bool.or_eq_true, Bool.and_eq_true, decide_eq_true_eq] at h
  rcases h with h | ⟨h1, h2⟩
  · subst h
    exact ⟨by decide, by decide⟩
  · refine ⟨isNumeral_no_space tok h1, ?_⟩
    rw [sscanfInt_numeral tok h1 h2]
    simp

theorem skipSpace_not_blank (b : Nat) (rest : Bytes)
    (hb : b ∉ [9, 11, 12, 13, 32, 0xC2, 0xE1, 0xE2, 0xE3]) (h10 : b ≠ 10) :
    skipSpace (b :: rest) = some (b :: rest) := by
  simp only [List.mem_cons, List.mem_singleton, List.not_mem_nil, or_false, not_or] at hb
  obtain ⟨h9, h11, h12, h13, h32, hc2, he1, he2, he3⟩ := hb
  by_cases hlt : b < 228
  · interval_cases b <;> first | rfl | contradiction
  · obtain ⟨n, hn⟩ : ∃ n, b = n + 228 := ⟨b - 228, by omega⟩
    subst hn
    rfl

theorem scanNumber_no_digit (neg : Bool) (s : Bytes)
    (h : s = [] ∨ ∃ c t, s = c :: t ∧ ¬ (48 ≤ c ∧ c ≤ 57)) : scanNumber neg s = none := by
  have htw : s.takeWhile isNumberByte = [] := by
    rcases h with h | ⟨c, t, h, hc⟩
    · subst h; rfl
    · subst h
      rw [List.takeWhile_cons]
      have : isNumberByte c = false := by simp [isNumberByte]; omega
      simp [this]
  unfold scanNumber
  rw [if_pos htw]

theorem sscanfInt_notANumber (tok : Bytes) (h : notANumber tok = true) : sscanfInt tok = none := by
  cases tok with
  | nil => decide
  | cons b rest =>
    simp only [notANumber] at h
    by_cases hs : b = 43 ∨ b = 45
    · rw [if_pos hs] at h
      have hrest : rest = [] ∨ ∃ c t, rest = c :: t ∧ ¬ (48 ≤ c ∧ c ≤ 57) := by
        cases rest with
        | nil => left; rfl
        | cons c t =>
          right
          simp only [Bool.not_eq_true', decide_eq_false_iff_not] at h
          exact ⟨c, t, rfl, h⟩
      rcases hs with hs | hs
      · subst hs
        have hsk : skipSpace (43 :: rest) = some (43 :: rest) := rfl
        unfold sscanfInt
        rw [hsk]
        exact scanNumber_no_digit false rest hrest
      · subst hs
        have hsk : skipSpace (45 :: rest) = some (45 :: rest) := rfl
        unfold sscanfInt
        rw [hsk]
        exact scanNumber_no_digit true rest hrest
    · rw [if_neg hs] at h
      simp only [Bool.and_eq_true, Bool.not_eq_true', decide_eq_false_iff_not] at h
      obtain ⟨hd, hblank⟩ := h
      by_cases h10 : b = 10
      · subst h10
        have hsk : skipSpace (10 :: rest) = none := rfl
        unfold sscanfInt
        rw [hsk]
      · have hsk := skipSpace_not_blank b rest hblank h10
        have hsn := scanNumber_no_digit false (b :: rest) (Or.inr ⟨b, rest, rfl, hd⟩)
        unfold sscanfInt
        rw [hsk]
        have h43 : b ≠ 43 := fun he => hs (Or.inl he)
        have h45 : b ≠ 45 := fun he => hs (Or.inr he)
        split
        · rfl
        · rfl
        · rename_i heq
          simp only [Option.some.injEq, List.cons.injEq] at heq
          exact absurd heq.1 h43
        · rename_i heq
          simp only [Option.some.injEq, List.cons.injEq] at heq
          exact absurd heq.1 h45
        · rename_i heq
          simp only [Option.some.injEq] at heq
          rw [← heq]
          exact hsn

theorem fileStructure_malformed (message : Bytes) (h : MalformedHeader message) :
    fileStructure message = (Outcome.error, [], [], []) := by
  have hmax : maxCount < 2 ^ 63 := by decide
  rcases h with ⟨tok, tail, hmsg, h32, htail, hbad⟩ |
      ⟨countTok, tail, hmsg, htail, hnum, hle, hlt⟩ |
      ⟨countTok, good, name, badTok, tail, hmsg, hnum, hle, hlt, hgood, hname, hbad32, hbad,
        htail⟩
  · unfold fileStructure
    rw [hmsg, cut_token tok tail h32 htail]
    simp only
    rw [sscanfInt_notANumber tok hbad]
  · unfold fileStructure
    rw [hmsg, cut_token countTok tail (isNumeral_no_space _ hnum) htail]
    simp only
    rw [sscanfInt_numeral countTok hnum (by omega)]
    simp only
    rw [if_neg (by omega)]
    have hcount : tail.tail.count 64 ≤ tail.count 64 := (List.tail_sublist tail).count_le 64
    rw [readEntries_few_at _ _ (by simp only [Int.toNat_ofNat]; omega)]
  · have hfull : message = countTok ++ 32 ::
        ((good.map fun g => g.1 ++ [64] ++ g.2 ++ [32]).flatten ++ name ++ [64] ++ badTok ++ tail) := by
      rw [hmsg]
      simp
    unfold fileStructure
    rw [hfull, cut_append 32 _ _ (isNumeral_no_space _ hnum)]
    simp only
    rw [sscanfInt_numeral countTok hnum (by omega)]
    simp only
    rw [if_neg (by omega)]
    have hk : ((decValue countTok : Nat) : Int).toNat =
        good.length + ((decValue countTok - good.length - 1) + 1) := by
      simp only [Int.toNat_ofNat]
      omega
    rw [hk, readEntries_bad_size good name badTok tail _
      (fun g hg => ⟨(hgood g hg).1, (isSizeToken_spec g.2 (hgood g hg).2).1,
        (isSizeToken_spec g.2 (hgood g hg).2).2⟩)
      hname hbad32 (sscanfInt_notANumber badTok hbad) htail]

theorem takeWhile_digits_append (ds garbage : Bytes) (h : isNumeral ds = true)
    (hg : notDigitsAhead garbage) :
    (ds ++ garbage).takeWhile isNumberByte = ds := by
  have hdig := (isNumeral_spec ds h).2
  clear h
  induction ds with
  | nil =>
    rcases hg with hg | ⟨c, t, hg, hc⟩
    · subst hg; rfl
    · subst hg
      rw [List.nil_append, List.takeWhile_cons]
      have : isNumberByte c = false := by simp [isNumberByte]; omega
      simp [this]
  | cons b t ih =>
    have hb := hdig b (List.mem_cons_self _ _)
    have : isNumberByte b = true := by simp [isNumberByte, hb]
    rw [List.cons_append, List.takeWhile_cons, this]
    simp only [if_true]
    rw [ih fun x hx => hdig x (List.mem_cons_of_mem _ hx)]

theorem sscanfInt_digit_head (b : Nat) (t : Bytes) (h1 : 48 ≤ b) (h2 : b ≤ 57) :
    sscanfInt (b :: t) = scanNumber false (b :: t) := by
  unfold sscanfInt
  rw [skipSpace_digit b t h1 h2]
  have h43 : b ≠ 43 := by omega
  have h45 : b ≠ 45 := by omega
  split
  · rename_i heq; exact absurd heq (by simp)
  · rename_i heq; exact absurd heq (by simp)
  · rename_i heq
    simp only [Option.some.injEq, List.cons.injEq] at heq
    exact absurd heq.1 h43
  · rename_i heq
    simp only [Option.some.injEq, List.cons.injEq] at heq
    exact absurd heq.1 h45
  · rename_i heq
    simp only [Option.some.injEq] at heq
    rw [← heq]

theorem sscanfInt_ignores_rest (ds garbage : Bytes) (h : isNumeral ds = true)
    (hg : notDigitsAhead garbage) : sscanfInt (ds ++ garbage) = sscanfInt ds := by
  obtain ⟨hne, hdig⟩ := isNumeral_spec ds h
  have htw := takeWhile_digits_append ds garbage h hg
  have htw0 : ds.takeWhile isNumberByte = ds := by
    have := takeWhile_digits_append ds [] h (Or.inl rfl)
    simpa using this
  cases ds with
  | nil => exact absurd rfl hne
  | cons b t =>
    have hb := hdig b (List.mem_cons_self _ _)
    rw [List.cons_append, sscanfInt_digit_head b _ hb.1 hb.2, sscanfInt_digit_head b _ hb.1 hb.2]
    unfold scanNumber
    rw [← List.cons_append, htw, htw0]

theorem fileStructure_ignores_rest_of_count (ds garbage body : Bytes) (h : isNumeral ds = true)
    (hg : notDigitsAhead garbage) (h32 : 32 ∉ garbage) :
    fileStructure (ds ++ garbage ++ 32 :: body) = fileStructure (ds ++ 32 :: body) := by
  have hds := isNumeral_no_space ds h
  have hboth : 32 ∉ ds ++ garbage := by
    intro hm
    rcases List.mem_append.1 hm with hm | hm
    · exact hds hm
    · exact h32 hm
  unfold fileStructure
  rw [cut_append 32 _ _ hboth, cut_append 32 _ _ hds]
  simp only
  rw [sscanfInt_ignores_rest ds garbage h hg]

/-- C10 (as stated, refuted): a count token with trailing non-digit characters is
accepted (`2x` is read as 2), and so is a last entry without its space: in both
cases `fileStructure` returns no error and `Parse2Files` creates the entries. -/
theorem trailing_garbage_in_count_is_accepted :
    fileStructure (ascii "2x a@1 b@-1 z") =
      (Outcome.ok, [ascii "a", ascii "b"], ([1, -1] : List Int), ascii "z") ∧
    Parse2Files (ascii "2x a@1 b@-1 z") =
      ([(ascii "a", some (ascii "z")), (ascii "b", none)], Outcome.ok) ∧
    fileStructure (ascii "1 a@0q") = (Outcome.ok, [ascii "a"], ([0] : List Int), ([] : Bytes)) ∧
    Parse2Files (ascii "1 a@0q") = ([(ascii "a", some ([] : Bytes))], Outcome.ok) := by
  refine ⟨by decide, by decide, by decide, by decide⟩

/-- C10 (amended): `fileStructure` returns an error, and `Parse2Files` returns it
having created nothing, for every message whose count token is empty, or begins
with a sign that no digit follows, or begins with a byte that is neither a
digit, a sign nor a blank; and, when the count token is a numeral of at most
`maxCount`, for every message in which fewer `@` follow the count than entries
are declared, or in which, after fewer well-formed entries than declared, the
size token of an entry is empty or begins as just said. What follows the digits
of a token is not read: a numeral followed by bytes that do not start with a
digit scans as the numeral alone, and a message with such a count token is
decoded as the message with the numeral alone (`2x` as `2`). -/
theorem malformed_header_rejected_amended :
    (∀ message : Bytes, MalformedHeader message →
      fileStructure message = (Outcome.error, [], [], []) ∧
      Parse2Files message = ([], Outcome.error)) ∧
    (∀ ds garbage : Bytes, isNumeral ds = true → notDigitsAhead garbage →
      sscanfInt (ds ++ garbage) = sscanfInt ds) ∧
    (∀ ds garbage body : Bytes, isNumeral ds = true → notDigitsAhead garbage → 32 ∉ garbage →
      fileStructure (ds ++ garbage ++ 32 :: body) = fileStructure (ds ++ 32 :: body) ∧
      Parse2Files (ds ++ garbage ++ 32 :: body) = Parse2Files (ds ++ 32 :: body)) := by
  refine ⟨?_, ?_, ?_⟩
  · intro message h
    have hfs := fileStructure_malformed message h
    refine ⟨hfs, ?_⟩
    unfold Parse2Files
    rw [hfs]
  · intro ds garbage h hg
    exact sscanfInt_ignores_rest ds garbage h hg
  · intro ds garbage body h hg h32
    have hfs := fileStructure_ignores_rest_of_count ds garbage body h hg h32
    refine ⟨hfs, ?_⟩
    unfold Parse2Files
    rw [hfs]

/-- C10 (amended), at four messages: a count token that is not a number, a second
entry without its `@`, a second entry whose size token is not a number, and a
count token `2x`, decoded as with `2`. -/
theorem malformed_header_rejected_amended_witness :
    (fileStructure (ascii "two a@1 b@-1 z") = (Outcome.error, [], [], []) ∧
      Parse2Files (ascii "two a@1 b@-1 z") = ([], Outcome.error)) ∧
    (fileStructure (ascii "2 a@1 b z") = (Outcome.error, [], [], []) ∧
      Parse2Files (ascii "2 a@1 b z") = ([], Outcome.error)) ∧
    (fileStructure (ascii "2 a@1 b@x z") = (Outcome.error, [], [], []) ∧
      Parse2Files (ascii "2 a@1 b@x z") = ([], Outcome.error)) ∧
    (fileStructure (ascii "2" ++ ascii "x" ++ 32 :: ascii "a@1 b@-1 z") =
        fileStructure (ascii "2" ++ 32 :: ascii "a@1 b@-1 z") ∧
      Parse2Files (ascii "2" ++ ascii "x" ++ 32 :: ascii "a@1 b@-1 z") =
        Parse2Files (ascii "2" ++ 32 :: ascii "a@1 b@-1 z")) :=
  ⟨malformed_header_rejected_amended.1 (ascii "two a@1 b@-1 z")
      (Or.inl ⟨ascii "two", ascii " a@1 b@-1 z", by decide, by decide, Or.inr (by decide),
        by decide⟩),
    malformed_header_rejected_amended.1 (ascii "2 a@1 b z")
      (Or.inr (Or.inl ⟨ascii "2", ascii " a@1 b z", by decide, Or.inr (by decide), by decide,
        by decide, by decide⟩)),
    malformed_header_rejected_amended.1 (ascii "2 a@1 b@x z")
      (Or.inr (Or.inr ⟨ascii "2", [(ascii "a", ascii "1")], ascii "b", ascii "x", ascii " z",
        by decide, by decide, by decide, by decide, by decide, by decide, by decide, by decide,
        Or.inr (by decide)⟩)),
    malformed_header_rejected_amended.2.2 (ascii "2") (ascii "x") (ascii "a@1 b@-1 z")
      (by decide) (Or.inr ⟨120, [], by decide, by decide⟩) (by decide)⟩

/-! ## The decoder on arbitrary input -/

theorem readEntries_lengths : ∀ (n : Nat) (s : Bytes) (r : List Bytes × List Int × Bytes),
    readEntries n s = some r → r.1.length = n ∧ r.2.1.length = n := by
  intro n
  induction n with
  | zero =>
    intro s r h
    simp only [readEntries, Option.some.injEq] at h
    subst h
    exact ⟨rfl, rfl⟩
  | succ k ih =>
    intro s r h
    unfold readEntries at h
    split at h
    · exact absurd h (by simp)
    · split at h
      · exact absurd h (by simp)
      · rename_i r2 hr2
        simp only [Option.some.injEq] at h
        subst h
        have := ih _ _ hr2
        simp only [List.length_cons]
        omega

theorem writeFiles_ok : ∀ (files : List Bytes) (sizes : List Int) (payload : Bytes)
    (entries : List Entry), files.length = sizes.length →
    writeFiles files sizes payload = (entries, Outcome.ok) →
    entries.map (fun e => e.1) = files ∧ entries.map entrySize = sizes ∧
      ∃ rest, payload = (entries.map fun e => e.2.getD []).flatten ++ rest := by
  intro files
  induction files with
  | nil =>
    intro sizes payload entries hlen h
    cases sizes with
    | nil =>
      simp only [writeFiles, Prod.mk.injEq] at h
      rw [← h.1]
      exact ⟨rfl, rfl, payload, rfl⟩
    | cons a t => simp at hlen
  | cons file files ih =>
    intro sizes payload entries hlen h
    cases sizes with
    | nil => simp at hlen
    | cons fsize sizes =>
      have hlen2 : files.length = sizes.length := by simpa using hlen
      rw [writeFiles] at h
      by_cases h1 : fsize = -1
      · rw [if_pos h1] at h
        simp only [Prod.mk.injEq] at h
        obtain ⟨he, ho⟩ := h
        obtain ⟨hn, hs, rest, hp⟩ := ih sizes payload _ hlen2 (Prod.ext rfl ho)
        rw [← he]
        refine ⟨by simp [hn], by simp [hs, entrySize, h1], rest, ?_⟩
        simpa using hp
      · rw [if_neg h1] at h
        by_cases h2 : fsize < 0 ∨ (payload.length : Int) < fsize
        · rw [if_pos h2] at h
          simp at h
        · rw [if_neg h2] at h
          simp only [Prod.mk.injEq] at h
          obtain ⟨he, ho⟩ := h
          obtain ⟨hn, hs, rest, hp⟩ := ih sizes (payload.drop fsize.toNat) _ hlen2 (Prod.ext rfl ho)
          rw [← he]
          have hlt : fsize.toNat ≤ payload.length := by omega
          refine ⟨by simp [hn], ?_, rest, ?_⟩
          · simp only [List.map_cons, hs, entrySize, List.length_take]
            congr 1
            omega
          · simp only [List.map_cons, Option.getD_some, List.flatten_cons, List.append_assoc]
            rw [← hp, List.take_append_drop]

theorem fileStructure_ok_lengths (message : Bytes) (files : List Bytes) (sizes : List Int)
    (payload : Bytes) (h : fileStructure message = (Outcome.ok, files, sizes, payload)) :
    files.length = sizes.length := by
  unfold fileStructure at h
  split at h
  · simp at h
  · split at h
    · simp at h
    · split at h
      · simp at h
      · rename_i r hr
        simp only [Prod.mk.injEq, true_and] at h
        have hl := readEntries_lengths _ _ _ hr
        rw [h] at hl
        simp only at hl
        omega

/-- The part of the contract that holds: when `Parse2Files` ends normally, it has
created one entry per declared name, in order; an entry is a directory exactly
when its declared size is `-1`, and a file otherwise, with exactly as many bytes
as declared; and the contents of the files, in entry order, are consecutive bytes
from the start of the payload. -/
theorem parse2Files_ok_consumes_payload (message : Bytes) (entries : List Entry)
    (h : Parse2Files message = (entries, Outcome.ok)) :
    ∃ sizes payload rest, fileStructure message =
        (Outcome.ok, entries.map (fun e => e.1), sizes, payload) ∧
      entries.map entrySize = sizes ∧
      payload = (entries.map fun e => e.2.getD []).flatten ++ rest := by
  unfold Parse2Files at h
  rcases hfs : fileStructure message with ⟨out, files, sizes, payload⟩
  rw [hfs] at h
  cases out with
  | ok =>
    simp only at h
    obtain ⟨hnames, hsizes, rest, hp⟩ := writeFiles_ok files sizes payload entries
      (fileStructure_ok_lengths message files sizes payload hfs) h
    exact ⟨sizes, payload, rest, by rw [hnames], hsizes, hp⟩
  | error => simp at h
  | panic => simp at h

/-- C11 (the code at the failing inputs): `Parse2Files` does not return an error
but ends in a run-time panic when a declared file size exceeds the payload bytes
left (`1 a@5 hi`), when a declared size is negative and not `-1` (`1 a@-2 hi`),
and when the declared entry count is negative (`-1 `); in `2 a@1 b@3 xyz` the
first file has already been written when the second size overruns the payload. -/
theorem parse2Files_panics_on_untrusted_sizes :
    Parse2Files (ascii "1 a@5 hi") = ([], Outcome.panic) ∧
    Parse2Files (ascii "1 a@-2 hi") = ([], Outcome.panic) ∧
    Parse2Files (ascii "-1 ") = ([], Outcome.panic) ∧
    Parse2Files (ascii "2 a@1 b@3 xyz") = ([(ascii "a", some (ascii "x"))], Outcome.panic) := by
  refine ⟨by decide, by decide, by decide, by decide⟩

end Queueinator
